import Mathlib

/-!
Verification of the context-sensitive rename engine of the kotlin-renamer
repository (`internal/renamer/class.go`).

Buffers are modelled as `List Char`.  The Go regular expression
`\b` + QuoteMeta(oldName) + `\b` is embedded as `occAt`: under the input
contract of the spec (`oldName` matches `^[A-Za-z_][A-Za-z0-9_]*$`), the
word-boundary matches of that pattern are exactly the positions where the
buffer contains `oldName` with a non-identifier character (or a buffer edge)
on each side, and such matches can never overlap, so
`FindAllStringIndex` returns all of them in increasing order.
-/

namespace KR

/-- Identifier character test, from `isIdentChar` in class.go:
`[a-zA-Z0-9_]`. -/
def isIdentChar (c : Char) : Bool :=
  ('a' ≤ c && c ≤ 'z') || ('A' ≤ c && c ≤ 'Z') || ('0' ≤ c && c ≤ '9') || c == '_'

/-- First character of a valid identifier (`[a-zA-Z_]`). -/
def isIdentStart (c : Char) : Bool :=
  ('a' ≤ c && c ≤ 'z') || ('A' ≤ c && c ≤ 'Z') || c == '_'

/-- Embeds `ValidateIdentifier` from class.go: the regular expression
`^[a-zA-Z_][a-zA-Z0-9_]*$`. -/
def validIdentifier : List Char → Bool
  | [] => false
  | c :: cs => isIdentStart c && cs.all isIdentChar

/-- Space or horizontal tab, the cut set of the `strings.TrimLeft`/
`strings.TrimRight` calls in the context predicates. -/
def isSpaceTab (c : Char) : Bool := c == ' ' || c == '\t'

/-- Embeds `strings.TrimLeft(s, " \t")`. -/
def dropLeadWS (l : List Char) : List Char := l.dropWhile isSpaceTab

/-- Embeds `strings.TrimRight(s, " \t")`. -/
def dropTrailWS (l : List Char) : List Char := (l.reverse.dropWhile isSpaceTab).reverse

/-- Embeds `strings.HasSuffix(l, suf)`. -/
def endsWith (suf l : List Char) : Bool := List.isSuffixOf suf l

/-- The slice `s[a:b]` of a Go string (for `a ≤ b ≤ len s`, the only way it
is used in the source). -/
def extract (s : List Char) (a b : Nat) : List Char := (s.drop a).take (b - a)

/-- The text of `t` appears in `src` at position `i`. -/
def matchAt (src t : List Char) (i : Nat) : Bool :=
  (src.drop i).take t.length == t

/-- Word-boundary match of `old` at position `i` of `src`: the text of `old`
appears at `i` and the characters immediately before and after (if any) are
not identifier characters.  This is the match semantics of the Go pattern
`\b oldName \b` for an `oldName` made of word characters (out-of-range
`getD` yields the non-identifier default `' '`, matching the buffer-edge
case). -/
def occAt (src old : List Char) (i : Nat) : Bool :=
  matchAt src old i &&
  (i == 0 || !isIdentChar (src.getD (i - 1) ' ')) &&
  (!isIdentChar (src.getD (i + old.length) ' '))

/-- All word-boundary matches of `old` in `src`, in increasing order:
embeds `pat.FindAllStringIndex(src, -1)` (match starts; each match ends
`old.length` later). -/
def occurrencesOf (src old : List Char) : List Nat :=
  (List.range src.length).filter (fun i => occAt src old i)

/-- The reconstruction loop of `singlePassRename`: copy the text between
`last` and the next accepted match start, emit `newName`, continue after the
match.  `L` is `old.length`. -/
def renameFrom (src new : List Char) (L : Nat) : List Nat → Nat → List Char
  | [], last => src.drop last
  | p :: ps, last => (src.drop last).take (p - last) ++ new ++ renameFrom src new L ps (p + L)

/-- The accepted match starts: all word-boundary occurrences that the
context predicate accepts. -/
def acceptedPos (src old : List Char) (P : List Char → Nat → Nat → Bool) : List Nat :=
  (occurrencesOf src old).filter (fun i => P src i (i + old.length))

/-- Embeds `singlePassRename` from class.go: scan `src` for all
word-boundary occurrences of `old`, replace those accepted by `P`, and
return the modified buffer together with the replacement count. -/
def singlePassRename (src old new : List Char) (P : List Char → Nat → Nat → Bool) :
    List Char × Nat :=
  (renameFrom src new old.length (acceptedPos src old P) 0, (acceptedPos src old P).length)

/-! ### Context predicates

Each Go predicate receives `(src, start, end)` and reads only
`pre = src[:start]` and `post = src[end:]`.  We factor each one through a
two-argument core acting on those two lists. -/

/-- Core of `isClassContext`: word-boundary double check only, then accept. -/
def classCtx (pr po : List Char) : Bool :=
  (match pr.getLast? with | some c => !isIdentChar c | none => true) &&
  (match po.head? with | some c => !isIdentChar c | none => true)

/-- Embeds `isClassContext` from class.go. -/
def isClassContext (src : List Char) (a b : Nat) : Bool :=
  classCtx (src.take a) (src.drop b)

/-- Core of `MethodRenamer.isMethodContext`: boundary checks (the trailing
one on the space/tab-trimmed post), then accept when the trimmed pre ends
with `::` or `fun`, or the trimmed post starts with `(`. -/
def methodCtx (pr po₀ : List Char) : Bool :=
  let po := dropLeadWS po₀
  (match pr.getLast? with | some c => !isIdentChar c | none => true) &&
  (match po.head? with | some c => !isIdentChar c | none => true) &&
  (endsWith [':', ':'] (dropTrailWS pr) ||
   endsWith ['f', 'u', 'n'] (dropTrailWS pr) ||
   po.headD ' ' == '(')

/-- Embeds `isMethodContext` from class.go (note: the receiver's
`ClassName` field is never consulted by the Go method). -/
def isMethodContext (src : List Char) (a b : Nat) : Bool :=
  methodCtx (src.take a) (src.drop b)

/-- Core of `PropertyRenamer.isPropertyContext`: boundary checks, then the
`.`/`val`/`var` prefixes, `=` (not `==`), `:`, and the default branch that
accepts anything not followed by `(`. -/
def propCtx (pr po₀ : List Char) : Bool :=
  let po := dropLeadWS po₀
  (match pr.getLast? with | some c => !isIdentChar c | none => true) &&
  (match po.head? with | some c => !isIdentChar c | none => true) &&
  (endsWith ['.'] (dropTrailWS pr) ||
   endsWith ['v', 'a', 'l'] (dropTrailWS pr) ||
   endsWith ['v', 'a', 'r'] (dropTrailWS pr) ||
   (po.headD ' ' == '=' && po.getD 1 ' ' != '=') ||
   po.headD ' ' == ':' ||
   po.headD ' ' != '(')

/-- Embeds `isPropertyContext` from class.go (again, `ClassName` is never
consulted by the Go method). -/
def isPropertyContext (src : List Char) (a b : Nat) : Bool :=
  propCtx (src.take a) (src.drop b)

/-- Core of `isParameterContext`: word-boundary checks on the untrimmed
neighbours, then reject exactly when the space/tab-trimmed post starts with
`(`. -/
def paramCtx (pr po : List Char) : Bool :=
  (match pr.getLast? with | some c => !isIdentChar c | none => true) &&
  (match po.head? with | some c => !isIdentChar c | none => true) &&
  ((dropLeadWS po).headD ' ' != '(')

/-- Embeds `isParameterContext` from class.go. -/
def isParameterContext (src : List Char) (a b : Nat) : Bool :=
  paramCtx (src.take a) (src.drop b)

/-! ### Parameter scope resolution -/

/-- Go regexp `\s`: `[\t\n\f\r ]`. -/
def isGoSpace (c : Char) : Bool :=
  c == ' ' || c == '\t' || c == '\n' || c == '\x0c' || c == '\r'

/-- Embeds `hasParamName`: the regexp `\b` + QuoteMeta(old) + `\s*:` has a
match inside the parameter-list slice. -/
def hasParamName (sec old : List Char) : Bool :=
  (List.range sec.length).any (fun i =>
    matchAt sec old i &&
    (i == 0 || !isIdentChar (sec.getD (i - 1) ' ')) &&
    ((sec.drop (i + old.length)).dropWhile isGoSpace).headD ' ' == ':')

/-- Depth-counting scan shared by `findMatchingParen` and
`findMatchingBrace`; returns the index of the close delimiter that brings
the depth back to zero, if any. -/
def findDelim (opc clc : Char) : List Char → Nat → Int → Option Nat
  | [], _, _ => none
  | c :: rest, i, depth =>
    if c == opc then findDelim opc clc rest (i + 1) (depth + 1)
    else if c == clc then
      if depth - 1 == 0 then some i else findDelim opc clc rest (i + 1) (depth - 1)
    else findDelim opc clc rest (i + 1) depth

/-- Embeds `findMatchingParen` (Go returns -1 for "not found": `none`). -/
def findMatchingParen (src : List Char) (opn : Nat) : Option Nat :=
  findDelim '(' ')' (src.drop opn) opn 0

/-- Embeds `findMatchingBrace`. -/
def findMatchingBrace (src : List Char) (opn : Nat) : Option Nat :=
  findDelim '{' '}' (src.drop opn) opn 0

/-- Index reached after skipping, from `i`, every character satisfying `p`. -/
def skipFromWhile (p : Char → Bool) (src : List Char) (i : Nat) : Nat :=
  i + ((src.drop i).takeWhile p).length

/-- The whitespace set of the first skip loop of `findFunctionBody`. -/
def isBodyWS (c : Char) : Bool :=
  c == ' ' || c == '\t' || c == '\n' || c == '\r'

/-- Embeds `findFunctionBody`: skip whitespace and an optional return-type
annotation, then resolve a block body (`{`, brace matched) or an expression
body (`=`, up to end of line); `none` for the Go `(-1, -1)` result. -/
def findFunctionBody (src : List Char) (afterParams : Nat) : Option (Nat × Nat) :=
  let i₁ := skipFromWhile isBodyWS src afterParams
  let i₂ := if src.getD i₁ 'x' == ':'
    then skipFromWhile (fun c => !(c == '{' || c == '=' || c == '\n')) src i₁
    else i₁
  if src.length ≤ i₂ then none
  else if src.getD i₂ 'x' == '{' then
    match findMatchingBrace src i₂ with
    | none => none
    | some e => some (i₂, e + 1)
  else if src.getD i₂ 'x' == '=' then
    match List.findIdx? (fun c => c == '\n') (src.drop i₂) with
    | none => some (i₂, src.length)
    | some k => some (i₂, i₂ + k + 1)
  else none

/-- The keyword scanned for by the Go pattern `(?m)\bfun\b`. -/
def funKw : List Char := ['f', 'u', 'n']

/-- Loop state of `renameParameters`: the evolving buffer, the accumulated
length-delta offset, and the running replacement total. -/
structure PState where
  result : List Char
  offset : Int
  total : Nat
deriving Repr

/-- The resolved body end for a header whose parameter list closes at
`parenClose`: the end reported by `findFunctionBody`, or the Go fallback
`parenClose + 1` (signature only) when no body is found. -/
def headerBodyEnd (res : List Char) (parenClose : Nat) : Nat :=
  match findFunctionBody res (parenClose + 1) with
  | none => parenClose + 1
  | some be => be.2

/-- The tail of a `renameParameters` iteration: rename inside the resolved
scope `[parenOpen, bodyEnd)` and, when anything was replaced, splice the
renamed scope back and update offset and total. -/
def spliceScope (old new : List Char) (st : PState) (parenOpen bodyEnd : Nat) : PState :=
  if 0 < (singlePassRename (extract st.result parenOpen bodyEnd) old new isParameterContext).2
  then
    ⟨st.result.take parenOpen ++
        (singlePassRename (extract st.result parenOpen bodyEnd) old new isParameterContext).1 ++
        st.result.drop bodyEnd,
      st.offset +
        (((singlePassRename (extract st.result parenOpen bodyEnd) old new
            isParameterContext).1.length : Int) -
          ((extract st.result parenOpen bodyEnd).length : Int)),
      st.total + (singlePassRename (extract st.result parenOpen bodyEnd) old new
        isParameterContext).2⟩
  else st

/-- The part of a `renameParameters` iteration following the location of
the parameter-list open parenthesis: match the closing parenthesis (skip
the header when unmatched), test `hasParamName` (skip when absent),
resolve the body and splice. -/
def paramHeader (old new : List Char) (st : PState) (parenOpen : Nat) : PState :=
  match findMatchingParen st.result parenOpen with
  | none => st
  | some parenClose =>
    if hasParamName (extract st.result parenOpen (parenClose + 1)) old
    then spliceScope old new st parenOpen (headerBodyEnd st.result parenClose)
    else st

/-- One iteration of the `renameParameters` loop for the keyword occurrence
at original position `loc`.  Returns `none` exactly when the Go code would
panic: `result[funStart:]` with `funStart` outside `[0, len result]`
(reachable when earlier edits shrank the buffer enough to drive
`loc + offset` negative). -/
def paramStep (old new : List Char) (st : PState) (loc : Nat) : Option PState :=
  if (loc : Int) + st.offset < 0 ∨ (st.result.length : Int) < (loc : Int) + st.offset then none
  else
    match List.findIdx? (fun c => c == '(')
        (st.result.drop ((loc : Int) + st.offset).toNat) with
    | none => some st
    | some rel => some (paramHeader old new st (((loc : Int) + st.offset).toNat + rel))

/-- Embeds `renameParameters`: fold the per-header step over all
word-boundary occurrences of the `fun` keyword found in the original
buffer.  `none` models the Go slice panic (see `paramStep`). -/
def renameParameters (src old new : List Char) : Option (List Char × Nat) :=
  ((occurrencesOf src funKw).foldl
      (fun o loc => o.bind (fun st => paramStep old new st loc))
      (some ⟨src, 0, 0⟩)).map (fun st => (st.result, st.total))

/-! ### Renamer front ends -/

/-- Embeds the `MethodRenamer` struct; its `ClassName` field exists in the
Go source but is never read by `isMethodContext`. -/
structure MethodRenamer where
  ClassName : List Char

/-- Embeds `MethodRenamer.Rename`.  The Go implementation calls
`singlePassRename` with `r.isMethodContext`, which never inspects
`r.ClassName`; the field is therefore dead in this method. -/
def MethodRenamer.Rename (_ : MethodRenamer) (content old new : List Char) :
    List Char × Nat :=
  singlePassRename content old new isMethodContext

/-- Embeds the `PropertyRenamer` struct; `ClassName` is likewise never read. -/
structure PropertyRenamer where
  ClassName : List Char

/-- Embeds `PropertyRenamer.Rename` (class.go): `singlePassRename` with
`isPropertyContext`, `ClassName` unread. -/
def PropertyRenamer.Rename (_ : PropertyRenamer) (content old new : List Char) :
    List Char × Nat :=
  singlePassRename content old new isPropertyContext

/-- The four symbol kinds of the spec's data model. -/
inductive SymbolKind where
  | typeSym
  | functionSym
  | propertySym
  | parameterSym
deriving DecidableEq, Repr

/-- The rename driver, dispatching as `buildRenameFn` in cmd/rename.go
does: class/interface/object use `isClassContext`, method uses
`isMethodContext`, property uses `isPropertyContext`, parameter uses
`renameParameters`.  The `Option` records the possibility of the Go panic
in the parameter path; the three single-pass kinds always succeed. -/
def renameByKind : SymbolKind → List Char → List Char → List Char → Option (List Char × Nat)
  | .typeSym, src, o, n => some (singlePassRename src o n isClassContext)
  | .functionSym, src, o, n => some (singlePassRename src o n isMethodContext)
  | .propertySym, src, o, n => some (singlePassRename src o n isPropertyContext)
  | .parameterSym, src, o, n => renameParameters src o n

/-! ### Specification-side definitions

These re-state, word for word, acceptance rules as the specification (or a
claim derived from it) phrases them, so that the code's predicates can be
compared against them. -/

/-- The Function acceptance rule as claim C4 words it: accepted exactly when
the occurrence is preceded (after trimming spaces and tabs) by `::` or by
the keyword `fun` (the three characters standing as their own token: not
preceded by an identifier character), or followed (after trimming) by `(`. -/
def claimedFunctionAccept (src : List Char) (a b : Nat) : Bool :=
  endsWith [':', ':'] (dropTrailWS (src.take a)) ||
  (endsWith ['f', 'u', 'n'] (dropTrailWS (src.take a)) &&
    !isIdentChar (((dropTrailWS (src.take a)).take
      ((dropTrailWS (src.take a)).length - 3)).getLastD ' ')) ||
  (dropLeadWS (src.drop b)).headD ' ' == '('

/-- The collapsed Property rule as claim C10 words it: the predicate's own
word-boundary test (untrimmed preceding character, space/tab-trimmed
following character) plus "the first character after the span, after
trimming, is not `(`". -/
def claimedPropertyCollapse (src : List Char) (a b : Nat) : Bool :=
  (match (src.take a).getLast? with | some c => !isIdentChar c | none => true) &&
  (match (dropLeadWS (src.drop b)).head? with | some c => !isIdentChar c | none => true) &&
  ((dropLeadWS (src.drop b)).headD ' ' != '(')

/-! ### Structural notions used by the frame and preservation theorems -/

/-- Position map induced by replacing, left to right, each span `[p, p + L)`
for `p` in `ps` by a string of length `N`, starting from source position
`last`: positions before a span keep their relative place, positions at or
after a span's end are shifted by the accumulated length delta. -/
def posMap (L N : Nat) : List Nat → Nat → Nat → Nat
  | [], last, q => q - last
  | p :: ps, last, q =>
    if q < p + L then q - last else (p - last) + N + posMap L N ps (p + L) q

/-- Hypothesis bundle for reasoning about `renameFrom`: the replacement
positions are increasing with non-overlapping spans, all at or after
`last`, and each is a word-boundary occurrence of `old`. -/
structure SepOcc (src old : List Char) (last : Nat) (ps : List Nat) : Prop where
  sep : ps.Pairwise (fun p q => p + old.length ≤ q)
  lb : ∀ p ∈ ps, last ≤ p
  occ : ∀ p ∈ ps, occAt src old p = true

/-- Token preservation: every word-boundary occurrence of `t` in `s`
survives, intact and in order, into `s'`. -/
def TokPres (t s s' : List Char) : Prop :=
  ∃ f : Nat → Nat,
    (∀ p, occAt s t p = true → occAt s' t (f p) = true) ∧
    (∀ p q, occAt s t p = true → occAt s t q = true → p < q → f p < f q)

/-- A resolved parameter scope `[a, b)` of buffer `s` for target `old`:
`a` is the first `(` at or after some scan start, its matching close
parenthesis exists, the parameter-list slice declares `old` as a typed
parameter, and `b` is the body end resolved by `findFunctionBody` (with
the signature-only fallback). -/
def ScopeResolved (s old : List Char) (a b : Nat) : Prop :=
  (∃ fs rel, fs ≤ a ∧ List.findIdx? (fun c => c == '(') (s.drop fs) = some rel ∧
    a = fs + rel) ∧
  ∃ parenClose, findMatchingParen s a = some parenClose ∧
    hasParamName (extract s a (parenClose + 1)) old = true ∧
    b = headerBodyEnd s parenClose

/-- One splicing step of `renameParameters`: the buffer changes only inside
one resolved scope, which is rewritten by the parameter-context single-pass
rename; everything outside `[a, b)` is copied verbatim. -/
def ScopeEditStep (old new s s' : List Char) : Prop :=
  ∃ a b, ScopeResolved s old a b ∧
    s' = s.take a ++ (singlePassRename (extract s a b) old new isParameterContext).1 ++
      s.drop b

/-- Position map through a scope splice `s.take a ++ m ++ s.drop b`: the
prefix is fixed, window positions move by the local `posMap` of the
in-scope rename, suffix positions shift with the length change. -/
def spliceMap (L N : Nat) (ps : List Nat) (a b mlen gp : Nat) : Nat :=
  if gp < a then gp
  else if gp < b then a + posMap L N ps 0 (gp - a)
  else gp - b + (a + mlen)

/-! ### Concrete identifiers and buffers named by the claims -/

/-- The target identifier `User` of the substring-safety claim. -/
def userName : List Char := ['U', 's', 'e', 'r']

/-- The longer identifier `UserService` that must survive a `User` rename. -/
def userServiceName : List Char :=
  ['U', 's', 'e', 'r', 'S', 'e', 'r', 'v', 'i', 'c', 'e']

/-- A replacement name for the substring-safety instance. -/
def personName : List Char := ['P', 'e', 'r', 's', 'o', 'n']

/-- A buffer holding `UserService` and `User` as distinct tokens. -/
def c1Buf : List Char := "val s: UserService = User()".toList

/-- The result of renaming `User` to `Person` in `c1Buf` as a Type. -/
def c1Out : List Char := "val s: UserService = Person()".toList

/-- Scenario D input: a function with parameter `userId` plus a file-level
`val userId` declaration. -/
def scenarioD : List Char :=
  ("fun greet(userId: String): String \x7b return \"Hello $userId\" \x7d\n"
    ++ "val userId = \"global\"").toList

/-- Scenario D expected output: both in-scope occurrences renamed, the
file-level declaration untouched. -/
def scenarioDOut : List Char :=
  ("fun greet(accountId: String): String \x7b return \"Hello $accountId\" \x7d\n"
    ++ "val userId = \"global\"").toList

/-- The parameter name of Scenario D. -/
def userIdName : List Char := "userId".toList

/-- Its replacement in Scenario D. -/
def accountIdName : List Char := "accountId".toList

/-! ## Characterizations of the context predicate cores -/

/-- The method-context core accepts exactly when both boundary tests pass
and the trimmed pre ends with `::`, or ends with the three characters
`fun` (as a raw suffix), or the trimmed post starts with `(`. -/
theorem methodCtx_iff (pr po₀ : List Char) :
    methodCtx pr po₀ = true ↔
      (∀ c, pr.getLast? = some c → isIdentChar c = false) ∧
      (∀ c, (dropLeadWS po₀).head? = some c → isIdentChar c = false) ∧
      ([':', ':'] <:+ dropTrailWS pr ∨ ['f', 'u', 'n'] <:+ dropTrailWS pr ∨
        (dropLeadWS po₀).head? = some '(') := by
  unfold methodCtx
  simp only [endsWith, List.headD_eq_head?_getD]
  cases hpr : pr.getLast? <;> cases hpo : (dropLeadWS po₀).head? <;>
    simp [List.isSuffixOf_iff_suffix, beq_iff_eq] <;> tauto

/-- The property-context core accepts exactly when both boundary tests pass
and either the trimmed post does not start with `(`, or the trimmed pre
ends with `.`, `val`, or `var`.  The `=`/`:` branches of the source are
subsumed by the default branch; the `.`, `val`, `var` branches are not. -/
theorem propCtx_iff (pr po₀ : List Char) :
    propCtx pr po₀ = true ↔
      (∀ c, pr.getLast? = some c → isIdentChar c = false) ∧
      (∀ c, (dropLeadWS po₀).head? = some c → isIdentChar c = false) ∧
      ((dropLeadWS po₀).head? ≠ some '(' ∨ ['.'] <:+ dropTrailWS pr ∨
        ['v', 'a', 'l'] <:+ dropTrailWS pr ∨ ['v', 'a', 'r'] <:+ dropTrailWS pr) := by
  unfold propCtx
  simp only [endsWith, List.headD_eq_head?_getD]
  cases hpr : pr.getLast? <;> rcases hpo : (dropLeadWS po₀).head? with _ | c <;>
    simp [List.isSuffixOf_iff_suffix, beq_iff_eq]
  all_goals by_cases hc : c = '(' <;> simp [hc] <;> tauto

/-! ## Basic facts about identifiers, matches and occurrences -/

theorem isIdentChar_of_isIdentStart {c : Char} (h : isIdentStart c = true) :
    isIdentChar c = true := by
  simp only [isIdentStart, Bool.or_eq_true, Bool.and_eq_true] at h
  simp only [isIdentChar, Bool.or_eq_true, Bool.and_eq_true]
  tauto

theorem validIdentifier_all_ident {old : List Char} (h : validIdentifier old = true) :
    ∀ c ∈ old, isIdentChar c = true := by
  cases old with
  | nil => simp [validIdentifier] at h
  | cons c cs =>
    simp only [validIdentifier, Bool.and_eq_true, List.all_eq_true] at h
    intro d hd
    rcases List.mem_cons.mp hd with h' | h'
    · exact h' ▸ isIdentChar_of_isIdentStart h.1
    · exact h.2 d h'

theorem validIdentifier_length_pos {old : List Char} (h : validIdentifier old = true) :
    0 < old.length := by
  cases old with
  | nil => simp [validIdentifier] at h
  | cons c cs => simp

theorem matchAt_take {src t : List Char} {i : Nat} (h : matchAt src t i = true) :
    (src.drop i).take t.length = t := by
  simpa [matchAt] using h

theorem matchAt_add_le {src t : List Char} {i : Nat} (ht : t ≠ [])
    (h : matchAt src t i = true) : i + t.length ≤ src.length := by
  have h0 : 0 < t.length := List.length_pos.mpr ht
  have h1 := matchAt_take h
  have h2 := List.length_take t.length (src.drop i)
  rw [h1] at h2
  simp only [List.length_drop] at h2
  rw [Nat.min_def] at h2
  split at h2 <;> omega

theorem validIdentifier_ne_nil {old : List Char} (h : validIdentifier old = true) :
    old ≠ [] := by
  cases old with
  | nil => simp [validIdentifier] at h
  | cons c cs => simp

theorem matchAt_getD {src t : List Char} {i : Nat} (h : matchAt src t i = true)
    {j : Nat} (hj : j < t.length) (d : Char) : src.getD (i + j) d = t.getD j d := by
  have h1 := matchAt_take h
  have h2 : t.getD j d = ((src.drop i).take t.length).getD j d := by rw [h1]
  rw [h2]
  simp [List.getD, List.getElem?_take, hj]

theorem occAt_iff {src old : List Char} {i : Nat} :
    occAt src old i = true ↔
      matchAt src old i = true ∧
      (i = 0 ∨ isIdentChar (src.getD (i - 1) ' ') = false) ∧
      isIdentChar (src.getD (i + old.length) ' ') = false := by
  simp [occAt, Bool.and_eq_true, Bool.or_eq_true, and_assoc]

theorem occAt_lt_length {src old : List Char} {i : Nat} (hv : validIdentifier old = true)
    (h : occAt src old i = true) : i < src.length := by
  have h1 := matchAt_add_le (validIdentifier_ne_nil hv) (occAt_iff.mp h).1
  have h2 := validIdentifier_length_pos hv
  omega

theorem occAt_chars_ident {src old : List Char} {i : Nat} (hv : validIdentifier old = true)
    (h : occAt src old i = true) (j : Nat) (hj : j < old.length) :
    isIdentChar (src.getD (i + j) ' ') = true := by
  rw [matchAt_getD (occAt_iff.mp h).1 hj ' ']
  have hmem : old.getD j ' ' ∈ old := by
    have hval : old.getD j ' ' = old[j] := by
      simp [List.getD, List.getElem?_eq_getElem hj]
    rw [hval]
    exact List.getElem_mem hj
  exact validIdentifier_all_ident hv _ hmem

theorem occAt_sep {src old : List Char} {i j : Nat} (hv : validIdentifier old = true)
    (hi : occAt src old i = true) (hj : occAt src old j = true) (hij : i < j) :
    i + old.length ≤ j := by
  by_contra hlt
  push_neg at hlt
  have h1 : isIdentChar (src.getD (j - 1) ' ') = true := by
    have heq : i + (j - 1 - i) = j - 1 := by omega
    have := occAt_chars_ident hv hi (j - 1 - i) (by omega)
    rwa [heq] at this
  rcases (occAt_iff.mp hj).2.1 with h0 | hident
  · omega
  · rw [hident] at h1
    exact Bool.false_ne_true h1

theorem occAt_head_ident {src old : List Char} {i : Nat} (hv : validIdentifier old = true)
    (h : occAt src old i = true) : isIdentChar (src.getD i ' ') = true := by
  have := occAt_chars_ident hv h 0 (validIdentifier_length_pos hv)
  simpa using this

theorem occAt_adjacent_false {src old : List Char} {i j : Nat}
    (hv : validIdentifier old = true) (hi : occAt src old i = true)
    (hj : occAt src old j = true) (hadj : j = i + old.length) : False := by
  have h1 := (occAt_iff.mp hi).2.2
  have h2 := occAt_head_ident hv hj
  rw [hadj] at h2
  rw [h1] at h2
  exact Bool.false_ne_true h2

theorem mem_occurrencesOf {src old : List Char} {q : Nat} (hv : validIdentifier old = true) :
    q ∈ occurrencesOf src old ↔ occAt src old q = true := by
  simp only [occurrencesOf, List.mem_filter, List.mem_range]
  constructor
  · rintro ⟨_, h⟩
    exact h
  · intro h
    exact ⟨occAt_lt_length hv h, h⟩

theorem mem_acceptedPos {src old : List Char} {P : List Char → Nat → Nat → Bool} {q : Nat}
    (hv : validIdentifier old = true) :
    q ∈ acceptedPos src old P ↔ occAt src old q = true ∧ P src q (q + old.length) = true := by
  simp only [acceptedPos, List.mem_filter]
  rw [mem_occurrencesOf hv]

theorem sepOcc_acceptedPos (src old : List Char) (P : List Char → Nat → Nat → Bool)
    (hv : validIdentifier old = true) : SepOcc src old 0 (acceptedPos src old P) := by
  refine ⟨?_, fun p _ => Nat.zero_le _, ?_⟩
  · have h1 : (acceptedPos src old P).Pairwise (· < ·) :=
      ((List.pairwise_lt_range _).filter _).filter _
    refine h1.imp_of_mem ?_
    intro a b ha hb hab
    exact occAt_sep hv ((mem_acceptedPos hv).mp ha).1 ((mem_acceptedPos hv).mp hb).1 hab
  · intro p hp
    exact ((mem_acceptedPos hv).mp hp).1

theorem SepOcc.tail {src old : List Char} {last p : Nat} {ps : List Nat}
    (h : SepOcc src old last (p :: ps)) : SepOcc src old (p + old.length) ps := by
  refine ⟨h.sep.of_cons, ?_, fun q hq => h.occ q (List.mem_cons_of_mem p hq)⟩
  intro q hq
  exact (List.pairwise_cons.mp h.sep).1 q hq

theorem SepOcc.head_occ {src old : List Char} {last p : Nat} {ps : List Nat}
    (h : SepOcc src old last (p :: ps)) : occAt src old p = true :=
  h.occ p (List.mem_cons_self p ps)

theorem SepOcc.head_lb {src old : List Char} {last p : Nat} {ps : List Nat}
    (h : SepOcc src old last (p :: ps)) : last ≤ p :=
  h.lb p (List.mem_cons_self p ps)

theorem SepOcc.strict {src old : List Char} {last p : Nat} {ps : List Nat}
    (hv : validIdentifier old = true) (h : SepOcc src old last (p :: ps)) :
    ∀ q ∈ ps, p + old.length < q := by
  intro q hq
  have hle := (List.pairwise_cons.mp h.sep).1 q hq
  rcases Nat.lt_or_ge (p + old.length) q with h' | h'
  · exact h'
  · exfalso
    exact occAt_adjacent_false hv h.head_occ (h.occ q (List.mem_cons_of_mem p hq))
      (by omega)

/-! ## Frame and replacement structure of the single-pass engine -/

theorem extract_of_occAt {src old : List Char} {p : Nat} (h : occAt src old p = true) :
    extract src p (p + old.length) = old := by
  have h1 := matchAt_take (occAt_iff.mp h).1
  simpa [extract] using h1

theorem seg_length {src : List Char} {last p : Nat} (h1 : last ≤ p) (h2 : p ≤ src.length) :
    ((src.drop last).take (p - last)).length = p - last := by
  simp only [List.length_take, List.length_drop]
  omega

theorem seg_recompose {src : List Char} {a b : Nat} (h : a ≤ b) :
    (src.drop a).take (b - a) ++ src.drop b = src.drop a := by
  have h1 : src.drop b = (src.drop a).drop (b - a) := by
    rw [List.drop_drop]
    congr 1
    omega
  rw [h1, List.take_append_drop]

theorem posMap_eq_sub {L N : Nat} {ps : List Nat} {last q : Nat}
    (h : ∀ p ∈ ps, q < p + L) : posMap L N ps last q = q - last := by
  cases ps with
  | nil => rfl
  | cons p ps =>
    simp only [posMap, if_pos (h p (List.mem_cons_self p ps))]

theorem posMap_succ {L N : Nat} (hL : 0 < L) {ps : List Nat} :
    ∀ {last x : Nat}, (∀ p ∈ ps, x + 1 ≤ p ∨ p + L ≤ x) → last ≤ x →
    posMap L N ps last (x + 1) = posMap L N ps last x + 1 := by
  induction ps with
  | nil =>
    intro last x _ hlast
    simp only [posMap]
    omega
  | cons p ps ih =>
    intro last x h hlast
    rcases h p (List.mem_cons_self p ps) with hc | hc
    · have h1 : x < p + L := by omega
      have h2 : x + 1 < p + L := by omega
      simp only [posMap, if_pos h1, if_pos h2]
      omega
    · have h1 : ¬ x < p + L := by omega
      have h2 : ¬ x + 1 < p + L := by omega
      simp only [posMap, if_neg h1, if_neg h2]
      rw [ih (fun q hq => (h q (List.mem_cons_of_mem p hq))) hc]
      omega

/-- Dropping past the segment and the inserted name lands in the recursive
output. -/
theorem renameFrom_cons_drop {src old new : List Char} {last p : Nat} (ps : List Nat)
    (X : Nat) (hseglen : ((src.drop last).take (p - last)).length = p - last) :
    (renameFrom src new old.length (p :: ps) last).drop ((p - last) + new.length + X)
      = (renameFrom src new old.length ps (p + old.length)).drop X := by
  simp only [renameFrom]
  rw [List.append_assoc]
  have hidx : (p - last) + new.length + X
      = ((src.drop last).take (p - last)).length + (new.length + X) := by
    rw [hseglen]
    omega
  rw [hidx, List.drop_append, List.drop_append]

/-- Frame property: a window `[q, q + k)` of the source that is disjoint
from every replaced span is copied verbatim into the output, at the
position given by `posMap`. -/
theorem renameFrom_frame {src old : List Char} (new : List Char)
    (hv : validIdentifier old = true) :
    ∀ (ps : List Nat) (last q k : Nat), SepOcc src old last ps → last ≤ q →
    (∀ p ∈ ps, q + k ≤ p ∨ p + old.length ≤ q) →
    ((renameFrom src new old.length ps last).drop
        (posMap old.length new.length ps last q)).take k = (src.drop q).take k := by
  intro ps
  induction ps with
  | nil =>
    intro last q k _ hq _
    simp only [renameFrom, posMap]
    rw [List.drop_drop]
    congr 2
    omega
  | cons p ps ih =>
    intro last q k hsep hq hfree
    have hp_occ := hsep.head_occ
    have hp_lb := hsep.head_lb
    have hplen : p + old.length ≤ src.length :=
      matchAt_add_le (validIdentifier_ne_nil hv) (occAt_iff.mp hp_occ).1
    have hLpos := validIdentifier_length_pos hv
    have hseglen : ((src.drop last).take (p - last)).length = p - last :=
      seg_length hp_lb (by omega)
    rcases hfree p (List.mem_cons_self p ps) with hcase | hcase
    · -- the window ends before this span: it lies inside the copied segment
      by_cases hk : k = 0
      · subst hk
        simp
      · have hqp : q < p + old.length := by omega
        simp only [renameFrom, posMap, if_pos hqp]
        rw [List.append_assoc]
        have hle1 : q - last ≤ ((src.drop last).take (p - last)).length := by
          rw [hseglen]
          omega
        rw [List.drop_append_of_le_length hle1]
        have hle2 : k ≤ (((src.drop last).take (p - last)).drop (q - last)).length := by
          rw [List.length_drop, hseglen]
          omega
        rw [List.take_append_of_le_length hle2]
        rw [List.drop_take, List.drop_drop, List.take_take]
        have hm : min k ((p - last) - (q - last)) = k := by omega
        rw [hm]
        have hd : last + (q - last) = q := by omega
        rw [hd]
    · -- the span lies entirely before the window
      have hqp : ¬ q < p + old.length := by omega
      simp only [posMap, if_neg hqp]
      rw [renameFrom_cons_drop ps _ hseglen]
      exact ih (p + old.length) q k hsep.tail hcase
        (fun p' hp' => hfree p' (List.mem_cons_of_mem p hp'))

/-- Each replaced span carries the new name in the output, at the position
given by `posMap`. -/
theorem renameFrom_insert {src old : List Char} (new : List Char)
    (hv : validIdentifier old = true) :
    ∀ (ps : List Nat) (last p₀ : Nat), SepOcc src old last ps → p₀ ∈ ps →
    ((renameFrom src new old.length ps last).drop
        (posMap old.length new.length ps last p₀)).take new.length = new := by
  intro ps
  induction ps with
  | nil =>
    intro last p₀ _ hmem
    exact absurd hmem (List.not_mem_nil p₀)
  | cons p ps ih =>
    intro last p₀ hsep hmem
    have hp_occ := hsep.head_occ
    have hp_lb := hsep.head_lb
    have hplen : p + old.length ≤ src.length :=
      matchAt_add_le (validIdentifier_ne_nil hv) (occAt_iff.mp hp_occ).1
    have hLpos := validIdentifier_length_pos hv
    have hseglen : ((src.drop last).take (p - last)).length = p - last :=
      seg_length hp_lb (by omega)
    rcases List.mem_cons.mp hmem with h0 | h0
    · rw [h0]
      have h1 : p < p + old.length := by omega
      simp only [renameFrom, posMap, if_pos h1]
      rw [List.append_assoc]
      set seg := (src.drop last).take (p - last) with hseg
      rw [show p - last = seg.length from hseglen.symm, List.drop_left]
      rw [List.take_append_of_le_length (Nat.le_refl _), List.take_length]
    · have hgt : p + old.length < p₀ := hsep.strict hv p₀ h0
      have h1 : ¬ p₀ < p + old.length := by omega
      simp only [posMap, if_neg h1]
      rw [renameFrom_cons_drop ps _ hseglen]
      exact ih (p + old.length) p₀ hsep.tail h0

/-- After the last replaced span, the output is the verbatim tail of the
source. -/
theorem renameFrom_tail {src old : List Char} (new : List Char)
    (hv : validIdentifier old = true) :
    ∀ (ps : List Nat) (last q : Nat), SepOcc src old last ps → last ≤ q →
    (∀ p ∈ ps, p + old.length ≤ q) →
    (renameFrom src new old.length ps last).drop
        (posMap old.length new.length ps last q) = src.drop q := by
  intro ps
  induction ps with
  | nil =>
    intro last q _ hq _
    simp only [renameFrom, posMap]
    rw [List.drop_drop]
    congr 1
    omega
  | cons p ps ih =>
    intro last q hsep hq hall
    have hp_occ := hsep.head_occ
    have hp_lb := hsep.head_lb
    have hplen : p + old.length ≤ src.length :=
      matchAt_add_le (validIdentifier_ne_nil hv) (occAt_iff.mp hp_occ).1
    have hseglen : ((src.drop last).take (p - last)).length = p - last :=
      seg_length hp_lb (by omega)
    have hc := hall p (List.mem_cons_self p ps)
    have h1 : ¬ q < p + old.length := by omega
    simp only [posMap, if_neg h1]
    rw [renameFrom_cons_drop ps _ hseglen]
    exact ih (p + old.length) q hsep.tail hc
      (fun p' hp' => hall p' (List.mem_cons_of_mem p hp'))

/-- Output length accounting for `renameFrom`. -/
theorem renameFrom_length {src old : List Char} (new : List Char)
    (hv : validIdentifier old = true) :
    ∀ (ps : List Nat) (last : Nat), SepOcc src old last ps → last ≤ src.length →
    (renameFrom src new old.length ps last).length + ps.length * old.length + last
      = src.length + ps.length * new.length := by
  intro ps
  induction ps with
  | nil =>
    intro last _ hlast
    simp only [renameFrom, List.length_drop, List.length_nil]
    omega
  | cons p ps ih =>
    intro last hsep hlast
    have hp_occ := hsep.head_occ
    have hp_lb := hsep.head_lb
    have hplen : p + old.length ≤ src.length :=
      matchAt_add_le (validIdentifier_ne_nil hv) (occAt_iff.mp hp_occ).1
    have hseglen : ((src.drop last).take (p - last)).length = p - last :=
      seg_length hp_lb (by omega)
    have hrec := ih (p + old.length) hsep.tail (by omega)
    simp only [renameFrom, List.length_append, hseglen, List.length_cons]
    have hL := validIdentifier_length_pos hv
    have hgoal : (p - last) + new.length +
        (renameFrom src new old.length ps (p + old.length)).length +
        (ps.length + 1) * old.length + last
        = src.length + (ps.length + 1) * new.length := by
      have e1 : (ps.length + 1) * old.length = ps.length * old.length + old.length :=
        Nat.succ_mul _ _
      have e2 : (ps.length + 1) * new.length = ps.length * new.length + new.length :=
        Nat.succ_mul _ _
      omega
    omega

/-- Strict monotonicity of the position map on positions clear of every
replaced span. -/
theorem posMap_mono {L N : Nat} (hL : 0 < L) :
    ∀ (ps : List Nat) (last q q' : Nat), last ≤ q → q < q' →
    ps.Pairwise (fun a b => a + L ≤ b) →
    (∀ p ∈ ps, q < p ∨ p + L ≤ q) → (∀ p ∈ ps, q' < p ∨ p + L ≤ q') →
    (∀ p ∈ ps, last ≤ p) →
    posMap L N ps last q < posMap L N ps last q' := by
  intro ps
  induction ps with
  | nil =>
    intro last q q' hq hqq _ _ _ _
    simp only [posMap]
    omega
  | cons p ps ih =>
    intro last q q' hq hqq hpw hfree hfree' hlb
    rcases hfree p (List.mem_cons_self p ps) with h1 | h1 <;>
      rcases hfree' p (List.mem_cons_self p ps) with h2 | h2
    · have hc1 : q < p + L := by omega
      have hc2 : q' < p + L := by omega
      simp only [posMap, if_pos hc1, if_pos hc2]
      omega
    · have hc1 : q < p + L := by omega
      have hc2 : ¬ q' < p + L := by omega
      simp only [posMap, if_pos hc1, if_neg hc2]
      have hlbp := hlb p (List.mem_cons_self p ps)
      omega
    · omega
    · have hc1 : ¬ q < p + L := by omega
      have hc2 : ¬ q' < p + L := by omega
      simp only [posMap, if_neg hc1, if_neg hc2]
      have hrec := ih (p + L) q q' h1 hqq hpw.of_cons
        (fun r hr => hfree r (List.mem_cons_of_mem p hr))
        (fun r hr => hfree' r (List.mem_cons_of_mem p hr))
        (fun r hr => (List.pairwise_cons.mp hpw).1 r hr)
      omega

/-! ## Character access helpers -/

theorem getD_eq_default {l : List Char} {n : Nat} (d : Char) (h : l.length ≤ n) :
    l.getD n d = d := by
  simp [List.getD, List.getElem?_eq_none h]

theorem getD_drop (l : List Char) (n j : Nat) (d : Char) :
    (l.drop n).getD j d = l.getD (n + j) d := by
  simp [List.getD]

theorem getD_eq_of_take_eq {u v : List Char} {k j : Nat} (h : u.take k = v.take k)
    (hj : j < k) (d : Char) : u.getD j d = v.getD j d := by
  have h1 : (u.take k).getD j d = (v.take k).getD j d := by rw [h]
  simpa [List.getD, List.getElem?_take, hj] using h1

/-! ## Preservation of unaffected tokens -/

/-- The inserted position-map step over the left edge of a clear token:
the predecessor character survives, so the token's left boundary holds in
the output. -/
theorem renameFrom_pre_boundary {src old new : List Char} (hv : validIdentifier old = true)
    (ps : List Nat) (r : Nat) (hsep : SepOcc src old 0 ps)
    (hro : ∀ p ∈ ps, r ≤ p ∨ p + old.length ≤ r) (hr1 : 1 ≤ r)
    (hprev : isIdentChar (src.getD (r - 1) ' ') = false) :
    posMap old.length new.length ps 0 r = posMap old.length new.length ps 0 (r - 1) + 1 ∧
    isIdentChar ((renameFrom src new old.length ps 0).getD
      (posMap old.length new.length ps 0 (r - 1)) ' ') = false := by
  have hL := validIdentifier_length_pos hv
  have hfree1 : ∀ p ∈ ps, (r - 1) + 1 ≤ p ∨ p + old.length ≤ r - 1 := by
    intro p hp
    rcases hro p hp with h | h
    · left
      omega
    · -- a span ending exactly at r would make the predecessor an identifier char
      right
      rcases Nat.lt_or_ge (p + old.length) r with h' | h'
      · omega
      · exfalso
        have heq : p + old.length = r := by omega
        have hc := occAt_chars_ident hv (hsep.occ p hp) (old.length - 1) (by omega)
        have : p + (old.length - 1) = r - 1 := by omega
        rw [this] at hc
        rw [hprev] at hc
        exact Bool.false_ne_true hc
  have hsuc : posMap old.length new.length ps 0 ((r - 1) + 1)
      = posMap old.length new.length ps 0 (r - 1) + 1 :=
    posMap_succ hL hfree1 (Nat.zero_le _)
  have hr : posMap old.length new.length ps 0 r
      = posMap old.length new.length ps 0 (r - 1) + 1 := by
    rw [show r = (r - 1) + 1 by omega] at hsuc ⊢
    exact hsuc
  refine ⟨hr, ?_⟩
  have hframe := renameFrom_frame new hv ps 0 (r - 1) 1 hsep (Nat.zero_le _)
    (by intro p hp; rcases hfree1 p hp with h | h
        · left; omega
        · right; omega)
  have := getD_eq_of_take_eq hframe (Nat.lt_irrefl 0 |> fun _ => Nat.zero_lt_one) ' '
  rw [getD_drop, getD_drop, Nat.add_zero, Nat.add_zero] at this
  rw [this]
  exact hprev

/-- A word-boundary occurrence of `t` whose span is clear of every replaced
span survives the rename, at the position given by `posMap`. -/
theorem occAt_preserved {src old new t : List Char} (hv : validIdentifier old = true)
    (ht : t ≠ []) (ps : List Nat) (r : Nat) (hsep : SepOcc src old 0 ps)
    (hr : occAt src t r = true)
    (hfree : ∀ p ∈ ps, r + t.length ≤ p ∨ p + old.length ≤ r) :
    occAt (renameFrom src new old.length ps 0) t
      (posMap old.length new.length ps 0 r) = true := by
  have hL := validIdentifier_length_pos hv
  have hT : 0 < t.length := List.length_pos.mpr ht
  obtain ⟨hmatch, hbef, haft⟩ := occAt_iff.mp hr
  have hrT : r + t.length ≤ src.length := matchAt_add_le ht hmatch
  have hro : ∀ p ∈ ps, r ≤ p ∨ p + old.length ≤ r := by
    intro p hp
    rcases hfree p hp with h | h
    · left; omega
    · right; exact h
  -- left boundary of the surviving token
  have hpre : posMap old.length new.length ps 0 r = 0 ∨
      (isIdentChar ((renameFrom src new old.length ps 0).getD
        (posMap old.length new.length ps 0 r - 1) ' ') = false) := by
    rcases hbef with h0 | hprev
    · left
      rw [h0]
      exact posMap_eq_sub (by intro p _; omega)
    · rcases Nat.eq_zero_or_pos r with h0 | hr1
      · left
        rw [h0]
        exact posMap_eq_sub (by intro p _; omega)
      · right
        obtain ⟨hstep, hchar⟩ := renameFrom_pre_boundary hv ps r hsep hro hr1 hprev
        rw [hstep]
        simpa using hchar
  rcases Nat.lt_or_ge (r + t.length) src.length with hcase | hcase
  · -- the token ends strictly inside the buffer
    have hfree1 : ∀ p ∈ ps, r + (t.length + 1) ≤ p ∨ p + old.length ≤ r := by
      intro p hp
      rcases hfree p hp with h | h
      · left
        rcases Nat.lt_or_ge (r + t.length) p with h' | h'
        · omega
        · exfalso
          have hpe : p = r + t.length := by omega
          have hhead := occAt_head_ident hv (hsep.occ p hp)
          rw [hpe, haft] at hhead
          exact Bool.false_ne_true hhead
      · right; exact h
    have hframe := renameFrom_frame new hv ps 0 r (t.length + 1) hsep
      (Nat.zero_le _) hfree1
    rw [occAt_iff]
    refine ⟨?_, ?_, ?_⟩
    · rw [matchAt]
      have htake : ((renameFrom src new old.length ps 0).drop
          (posMap old.length new.length ps 0 r)).take t.length
          = (src.drop r).take t.length := by
        have h1 := congrArg (List.take t.length) hframe
        simp only [List.take_take] at h1
        have hmin : min t.length (t.length + 1) = t.length := by omega
        rwa [hmin] at h1
      rw [htake]
      exact (occAt_iff.mp hr).1
    · rcases hpre with h | h
      · left; exact h
      · right; exact h
    · have := getD_eq_of_take_eq hframe (by omega : t.length < t.length + 1) ' '
      rw [getD_drop, getD_drop] at this
      rw [this]
      exact haft
  · -- the token runs to the end of the buffer: everything replaced lies before it
    have hall : ∀ p ∈ ps, p + old.length ≤ r := by
      intro p hp
      rcases hfree p hp with h | h
      · exfalso
        have hple := matchAt_add_le (validIdentifier_ne_nil hv)
          (occAt_iff.mp (hsep.occ p hp)).1
        omega
      · exact h
    have htail := renameFrom_tail new hv ps 0 r hsep (Nat.zero_le _) hall
    rw [occAt_iff]
    have hrlen : src.length = r + t.length := by omega
    refine ⟨?_, ?_, ?_⟩
    · rw [matchAt, htail]
      exact (occAt_iff.mp hr).1
    · rcases hpre with h | h
      · left; exact h
      · right; exact h
    · have hlen : ((renameFrom src new old.length ps 0).drop
          (posMap old.length new.length ps 0 r)).length = t.length := by
        rw [htail, List.length_drop]
        omega
      rw [List.length_drop] at hlen
      have hdef : (renameFrom src new old.length ps 0).getD
          (posMap old.length new.length ps 0 r + t.length) ' ' = ' ' :=
        getD_eq_default ' ' (by omega)
      rw [hdef]
      decide

/-! ## Pointwise characterizations -/

theorem getD_append_left {u v : List Char} {j : Nat} (d : Char) (h : j < u.length) :
    (u ++ v).getD j d = u.getD j d := by
  simp [List.getD, List.getElem?_append, h]

theorem getD_append_right {u v : List Char} {j : Nat} (d : Char) (h : u.length ≤ j) :
    (u ++ v).getD j d = v.getD (j - u.length) d := by
  simp [List.getD, List.getElem?_append_right, h]

theorem getD_take {l : List Char} {k j : Nat} (d : Char) (h : j < k) :
    (l.take k).getD j d = l.getD j d := by
  simp [List.getD, List.getElem?_take, h]

theorem getD_of_lt {l : List Char} {j : Nat} (d : Char) (h : j < l.length) :
    l.getD j d = l[j] := by
  simp [List.getD, List.getElem?_eq_getElem h]

theorem matchAt_iff_getD {src t : List Char} (ht : t ≠ []) {i : Nat} :
    matchAt src t i = true ↔
      i + t.length ≤ src.length ∧
      ∀ j, j < t.length → src.getD (i + j) ' ' = t.getD j ' ' := by
  constructor
  · intro h
    exact ⟨matchAt_add_le ht h, fun j hj => matchAt_getD h hj ' '⟩
  · rintro ⟨hlen, hch⟩
    rw [matchAt, beq_iff_eq]
    apply List.ext_getElem
    · simp only [List.length_take, List.length_drop]
      omega
    · intro j h1 h2
      have hj : j < t.length := h2
      have h3 : ((src.drop i).take t.length).getD j ' ' = src.getD (i + j) ' ' := by
        rw [getD_take ' ' hj, getD_drop]
      have h4 : ((src.drop i).take t.length).getD j ' '
          = ((src.drop i).take t.length)[j] := getD_of_lt ' ' h1
      have h5 : t.getD j ' ' = t[j] := getD_of_lt ' ' h2
      rw [← h4, h3, hch j hj, h5]

theorem occAt_of_getD {src t : List Char} (ht : t ≠ []) {i : Nat}
    (hlen : i + t.length ≤ src.length)
    (hch : ∀ j, j < t.length → src.getD (i + j) ' ' = t.getD j ' ')
    (hbef : i = 0 ∨ isIdentChar (src.getD (i - 1) ' ') = false)
    (haft : isIdentChar (src.getD (i + t.length) ' ') = false) :
    occAt src t i = true :=
  occAt_iff.mpr ⟨(matchAt_iff_getD ht).mpr ⟨hlen, hch⟩, hbef, haft⟩

theorem occAt_getD_char {src t : List Char} (ht : t ≠ []) {i : Nat}
    (h : occAt src t i = true) (j : Nat) (hj : j < t.length) :
    src.getD (i + j) ' ' = t.getD j ' ' :=
  ((matchAt_iff_getD ht).mp (occAt_iff.mp h).1).2 j hj

/-! ## Facts about the scanning helpers -/

theorem findIdx?_some_facts {p : Char → Bool} :
    ∀ {l : List Char} {i : Nat}, List.findIdx? p l = some i →
    i < l.length ∧ p (l.getD i ' ') = true := by
  intro l
  induction l with
  | nil =>
    intro i h
    simp [List.findIdx?] at h
  | cons c cs ih =>
    intro i h
    rw [List.findIdx?_cons] at h
    by_cases hc : p c = true
    · simp [hc] at h
      subst h
      simpa using hc
    · simp [hc] at h
      obtain ⟨j, hj, hij⟩ := h
      obtain ⟨h1, h2⟩ := ih hj
      subst hij
      exact ⟨by simpa using h1, by simpa using h2⟩

theorem findDelim_some_facts {opc clc : Char} :
    ∀ (l : List Char) (i : Nat) (dep : Int) {j : Nat},
    findDelim opc clc l i dep = some j →
    i ≤ j ∧ j < i + l.length ∧ l.getD (j - i) ' ' = clc := by
  intro l
  induction l with
  | nil =>
    intro i dep j h
    simp [findDelim] at h
  | cons c cs ih =>
    intro i dep j h
    rw [findDelim] at h
    by_cases h1 : c == opc
    · rw [if_pos h1] at h
      obtain ⟨ha, hb, hc⟩ := ih (i + 1) (dep + 1) h
      refine ⟨by omega, by simp; omega, ?_⟩
      have hji : j - i = (j - (i + 1)) + 1 := by omega
      rw [hji]
      simpa using hc
    · rw [if_neg h1] at h
      by_cases h2 : c == clc
      · rw [if_pos h2] at h
        by_cases h3 : dep - 1 == 0
        · rw [if_pos h3] at h
          injection h with h
          subst h
          refine ⟨Nat.le_refl _, by simp, ?_⟩
          simp only [Nat.sub_self]
          simpa using (beq_iff_eq.mp h2)
        · rw [if_neg h3] at h
          obtain ⟨ha, hb, hc⟩ := ih (i + 1) (dep - 1) h
          refine ⟨by omega, by simp; omega, ?_⟩
          have hji : j - i = (j - (i + 1)) + 1 := by omega
          rw [hji]
          simpa using hc
      · rw [if_neg h2] at h
        obtain ⟨ha, hb, hc⟩ := ih (i + 1) dep h
        refine ⟨by omega, by simp; omega, ?_⟩
        have hji : j - i = (j - (i + 1)) + 1 := by omega
        rw [hji]
        simpa using hc

theorem findMatchingParen_facts {s : List Char} {a pc : Nat}
    (h : findMatchingParen s a = some pc) :
    a ≤ pc ∧ pc < s.length ∧ s.getD pc ' ' = ')' := by
  obtain ⟨h1, h2, h3⟩ := findDelim_some_facts (s.drop a) a 0 h
  rw [List.length_drop] at h2
  rw [getD_drop] at h3
  refine ⟨h1, by omega, ?_⟩
  rwa [show a + (pc - a) = pc by omega] at h3

theorem findMatchingBrace_facts {s : List Char} {a pc : Nat}
    (h : findMatchingBrace s a = some pc) :
    a ≤ pc ∧ pc < s.length ∧ s.getD pc ' ' = '}' := by
  obtain ⟨h1, h2, h3⟩ := findDelim_some_facts (s.drop a) a 0 h
  rw [List.length_drop] at h2
  rw [getD_drop] at h3
  refine ⟨h1, by omega, ?_⟩
  rwa [show a + (pc - a) = pc by omega] at h3

theorem skipFromWhile_ge (p : Char → Bool) (s : List Char) (i : Nat) :
    i ≤ skipFromWhile p s i := by
  simp [skipFromWhile]

theorem findFunctionBody_facts {s : List Char} {ap : Nat} {be : Nat × Nat}
    (h : findFunctionBody s ap = some be) :
    ap ≤ be.2 ∧ be.2 ≤ s.length ∧
      (be.2 = s.length ∨ isIdentChar (s.getD (be.2 - 1) ' ') = false) := by
  unfold findFunctionBody at h
  set i₁ := skipFromWhile isBodyWS s ap with hi₁
  set i₂ := if s.getD i₁ 'x' == ':'
    then skipFromWhile (fun c => !(c == '{' || c == '=' || c == '\n')) s i₁
    else i₁ with hi₂
  have hi₂ge : ap ≤ i₂ := by
    have h1 := skipFromWhile_ge isBodyWS s ap
    rw [hi₂]
    split
    · have h2 := skipFromWhile_ge (fun c => !(c == '{' || c == '=' || c == '\n')) s i₁
      omega
    · omega
  rcases Nat.lt_or_ge i₂ s.length with hlen | hlen
  · rw [if_neg (by omega)] at h
    by_cases hb : s.getD i₂ 'x' == '{'
    · rw [if_pos hb] at h
      rcases hbr : findMatchingBrace s i₂ with _ | e
      · rw [hbr] at h
        simp at h
      · rw [hbr] at h
        injection h with h
        obtain ⟨he1, he2, he3⟩ := findMatchingBrace_facts hbr
        subst h
        refine ⟨by omega, by omega, Or.inr ?_⟩
        simp only [Nat.add_sub_cancel]
        rw [he3]
        decide
    · rw [if_neg hb] at h
      by_cases heq : s.getD i₂ 'x' == '='
      · rw [if_pos heq] at h
        rcases hnl : List.findIdx? (fun c => c == '\n') (s.drop i₂) with _ | k
        · rw [hnl] at h
          injection h with h
          subst h
          exact ⟨by omega, Nat.le_refl _, Or.inl rfl⟩
        · rw [hnl] at h
          injection h with h
          obtain ⟨hk1, hk2⟩ := findIdx?_some_facts hnl
          rw [List.length_drop] at hk1
          rw [getD_drop] at hk2
          subst h
          refine ⟨by omega, by omega, Or.inr ?_⟩
          simp only [Nat.add_sub_cancel]
          rw [beq_iff_eq.mp hk2]
          decide
      · rw [if_neg heq] at h
        simp at h
  · rw [if_pos (by omega)] at h
    simp at h

/-- The window of a resolved scope: it is non-degenerate, within the
buffer, starts at `(`, and its final character is never an identifier
character (unless the window runs to the buffer end). -/
theorem scopeResolved_window {s old : List Char} {a b : Nat}
    (h : ScopeResolved s old a b) :
    a < b ∧ b ≤ s.length ∧ s.getD a ' ' = '(' ∧
      (b = s.length ∨ isIdentChar (s.getD (b - 1) ' ') = false) := by
  obtain ⟨⟨fs, rel, hfs, hidx, hrel⟩, pc, hpc, _, hb⟩ := h
  obtain ⟨hrel1, hrel2⟩ := findIdx?_some_facts hidx
  rw [List.length_drop] at hrel1
  rw [getD_drop] at hrel2
  have hopen : s.getD a ' ' = '(' := by
    rw [hrel]
    exact beq_iff_eq.mp hrel2
  obtain ⟨hpc1, hpc2, hpc3⟩ := findMatchingParen_facts hpc
  have hbe : b = pc + 1 ∨ ∃ be, findFunctionBody s (pc + 1) = some be ∧ b = be.2 := by
    rw [hb]
    unfold headerBodyEnd
    rcases hfb : findFunctionBody s (pc + 1) with _ | be
    · exact Or.inl rfl
    · exact Or.inr ⟨be, rfl, rfl⟩
  rcases hbe with hbe | ⟨be, hfb, hbe⟩
  · subst hbe
    refine ⟨by omega, by omega, hopen, Or.inr ?_⟩
    simp only [Nat.add_sub_cancel]
    rw [hpc3]
    decide
  · obtain ⟨hb1, hb2, hb3⟩ := findFunctionBody_facts hfb
    subst hbe
    exact ⟨by omega, hb2, hopen, hb3⟩

/-! ## Token preservation through single-pass renames and scope splices -/

theorem getD_mem {l : List Char} {j : Nat} (d : Char) (h : j < l.length) :
    l.getD j d ∈ l := by
  rw [getD_of_lt d h]
  exact List.getElem_mem h

theorem getD_splice {u m w : List Char} (j : Nat) (d : Char) :
    (u ++ m ++ w).getD j d =
      if j < u.length then u.getD j d
      else if j < u.length + m.length then m.getD (j - u.length) d
      else w.getD (j - u.length - m.length) d := by
  rw [List.append_assoc]
  by_cases h1 : j < u.length
  · rw [if_pos h1, getD_append_left d h1]
  · rw [if_neg h1, getD_append_right d (by omega)]
    by_cases h2 : j < u.length + m.length
    · rw [if_pos h2, getD_append_left d (by omega)]
    · rw [if_neg h2, getD_append_right d (by omega)]

theorem getD_splice_at {s m : List Char} {a b : Nat} (ha : a ≤ s.length) (j : Nat)
    (d : Char) :
    (s.take a ++ m ++ s.drop b).getD j d =
      if j < a then s.getD j d
      else if j < a + m.length then m.getD (j - a) d
      else s.getD (b + (j - a - m.length)) d := by
  have hlen : (s.take a).length = a := by
    rw [List.length_take]
    omega
  rw [getD_splice, hlen]
  by_cases h1 : j < a
  · rw [if_pos h1, if_pos h1, getD_take d h1]
  · rw [if_neg h1, if_neg h1]
    by_cases h2 : j < a + m.length
    · rw [if_pos h2, if_pos h2]
    · rw [if_neg h2, if_neg h2, getD_drop]

theorem splice_length {s m : List Char} {a b : Nat} (ha : a ≤ s.length) :
    (s.take a ++ m ++ s.drop b).length = a + m.length + (s.length - b) := by
  simp only [List.length_append, List.length_take, List.length_drop]
  omega

/-- Token preservation for a single pass, given that occurrences of the
token and occurrences of the renamed name can never overlap. -/
theorem tokPres_renameFrom {src old t : List Char} (new : List Char)
    (hv : validIdentifier old = true) (ht : t ≠ []) (ps : List Nat)
    (hsep : SepOcc src old 0 ps)
    (hdisj : ∀ r p, occAt src t r = true → p ∈ ps →
      r + t.length ≤ p ∨ p + old.length ≤ r) :
    TokPres t src (renameFrom src new old.length ps 0) := by
  have hT : 0 < t.length := List.length_pos.mpr ht
  refine ⟨posMap old.length new.length ps 0, ?_, ?_⟩
  · intro r hr
    exact occAt_preserved hv ht ps r hsep hr (fun p hp => hdisj r p hr hp)
  · intro r r' hr hr' hlt
    refine posMap_mono (validIdentifier_length_pos hv) ps 0 r r' (Nat.zero_le _) hlt
      hsep.sep ?_ ?_ hsep.lb
    · intro p hp
      rcases hdisj r p hr hp with h | h
      · left; omega
      · right; exact h
    · intro p hp
      rcases hdisj r' p hr' hp with h | h
      · left; omega
      · right; exact h

theorem tokPres_refl (t s : List Char) : TokPres t s s :=
  ⟨id, fun _ h => h, fun _ _ _ _ h => h⟩

theorem tokPres_trans {t s s' s'' : List Char} (h1 : TokPres t s s')
    (h2 : TokPres t s' s'') : TokPres t s s'' := by
  obtain ⟨f, hf1, hf2⟩ := h1
  obtain ⟨g, hg1, hg2⟩ := h2
  exact ⟨g ∘ f, fun p hp => hg1 (f p) (hf1 p hp),
    fun p q hp hq hlt => hg2 (f p) (f q) (hf1 p hp) (hf1 q hq) (hf2 p q hp hq hlt)⟩

/-- One scope-splicing step of the parameter renamer preserves every
word-boundary occurrence of a token `t` that can never overlap an
occurrence of the renamed name. -/
theorem tokPres_scopeEdit {old new t : List Char} (hv : validIdentifier old = true)
    (ht : t ≠ []) (htid : ∀ c ∈ t, isIdentChar c = true)
    (hdisj : ∀ (c : List Char) (r p : Nat), occAt c t r = true → occAt c old p = true →
      r + t.length ≤ p ∨ p + old.length ≤ r)
    {s s' : List Char} (hstep : ScopeEditStep old new s s') : TokPres t s s' := by
  obtain ⟨a, b, hres, heq⟩ := hstep
  obtain ⟨hab, hblen, hopen, hlast⟩ := scopeResolved_window hres
  have hT : 0 < t.length := List.length_pos.mpr ht
  have hL := validIdentifier_length_pos hv
  set scope := extract s a b with hscope
  set ps := acceptedPos scope old isParameterContext with hps
  set m := (singlePassRename scope old new isParameterContext).1 with hmdef
  have hm : m = renameFrom scope new old.length ps 0 := rfl
  have hsep : SepOcc scope old 0 ps := sepOcc_acceptedPos scope old _ hv
  have hscopelen : scope.length = b - a := by
    rw [hscope]
    simp only [extract, List.length_take, List.length_drop]
    omega
  have hscope_getD : ∀ j, j < b - a → scope.getD j ' ' = s.getD (a + j) ' ' := by
    intro j hj
    rw [hscope]
    simp only [extract]
    rw [getD_take ' ' hj, getD_drop]
  have htch : ∀ j, j < t.length → isIdentChar (t.getD j ' ') = true := by
    intro j hj
    exact htid _ (getD_mem ' ' hj)
  have hparenNotIdent : isIdentChar '(' = false := by decide
  have hs'len : s'.length = a + m.length + (s.length - b) := by
    rw [heq]
    exact splice_length (by omega)
  have hs'getD : ∀ j d, s'.getD j d =
      if j < a then s.getD j d
      else if j < a + m.length then m.getD (j - a) d
      else s.getD (b + (j - a - m.length)) d := by
    intro j d
    rw [heq]
    exact getD_splice_at (by omega) j d
  -- the renamed scope still opens with the parenthesis
  have hps1 : ∀ p ∈ ps, 1 ≤ p := by
    intro p hp
    by_contra hp0
    have hp0' : p = 0 := by omega
    have hhead := occAt_head_ident hv (hsep.occ p hp)
    rw [hp0'] at hhead
    rw [hscope_getD 0 (by omega)] at hhead
    rw [Nat.add_zero, hopen, hparenNotIdent] at hhead
    exact Bool.false_ne_true hhead
  have hmhead : m.getD 0 ' ' = '(' := by
    have hsc0 : scope.getD 0 ' ' = '(' := by
      rw [hscope_getD 0 (by omega), Nat.add_zero]
      exact hopen
    have hframe := renameFrom_frame new hv ps 0 0 1 hsep (Nat.le_refl 0)
      (by intro p hp; left; simpa using hps1 p hp)
    have hzero : posMap old.length new.length ps 0 0 = 0 :=
      posMap_eq_sub (by intro p _; omega)
    rw [hzero] at hframe
    have h1 := getD_eq_of_take_eq hframe Nat.zero_lt_one ' '
    rw [getD_drop, getD_drop, Nat.add_zero] at h1
    rw [hm, h1]
    exact hsc0
  have hmne : m ≠ [] := by
    intro hnil
    rw [hnil] at hmhead
    simp [List.getD] at hmhead
  have hmpos : 0 < m.length := List.length_pos.mpr hmne
  -- the renamed scope ends with the original non-identifier closer
  have hspans_end : b < s.length → ∀ p ∈ ps, p + old.length ≤ b - a - 1 := by
    intro hblt p hp
    have hple : p + old.length ≤ b - a := by
      have := matchAt_add_le (validIdentifier_ne_nil hv) (occAt_iff.mp (hsep.occ p hp)).1
      omega
    rcases Nat.lt_or_ge (p + old.length) (b - a) with h' | h'
    · omega
    · exfalso
      have heq' : p + old.length = b - a := by omega
      have hc := occAt_chars_ident hv (hsep.occ p hp) (old.length - 1) (by omega)
      have hidx : p + (old.length - 1) = b - a - 1 := by omega
      rw [hidx] at hc
      rw [hscope_getD (b - a - 1) (by omega)] at hc
      rw [show a + (b - a - 1) = b - 1 by omega] at hc
      rcases hlast with h0 | hni
      · omega
      · rw [hni] at hc
        exact Bool.false_ne_true hc
  have hmlast : b < s.length →
      m.length = posMap old.length new.length ps 0 (b - a - 1) + 1 ∧
      m.getD (m.length - 1) ' ' = s.getD (b - 1) ' ' := by
    intro hblt
    have htail := renameFrom_tail new hv ps 0 (b - a - 1) hsep (Nat.zero_le _)
      (hspans_end hblt)
    have hlen1 : (scope.drop (b - a - 1)).length = 1 := by
      rw [List.length_drop, hscopelen]
      omega
    have hlen2 : m.length = posMap old.length new.length ps 0 (b - a - 1) + 1 := by
      have := congrArg List.length htail
      rw [List.length_drop, hlen1] at this
      rw [hm]
      omega
    refine ⟨hlen2, ?_⟩
    have hchar : m.getD (posMap old.length new.length ps 0 (b - a - 1)) ' '
        = scope.getD (b - a - 1) ' ' := by
      have h1 := congrArg (fun l => List.getD l 0 ' ') htail
      simp only at h1
      rw [getD_drop, getD_drop, Nat.add_zero, Nat.add_zero] at h1
      rw [hm]
      exact h1
    rw [hlen2, Nat.add_sub_cancel, hchar, hscope_getD (b - a - 1) (by omega),
      show a + (b - a - 1) = b - 1 by omega]
  -- a token inside the window restricts to the scope slice
  have hlocal : ∀ gp, occAt s t gp = true → a ≤ gp → gp + t.length ≤ b →
      occAt scope t (gp - a) = true := by
    intro gp hocc hga hgb
    have hgbound := matchAt_add_le ht (occAt_iff.mp hocc).1
    have hga' : a < gp := by
      rcases Nat.lt_or_ge a gp with h' | h'
      · exact h'
      · exfalso
        have h0 : gp = a := by omega
        have hh := occAt_getD_char ht hocc 0 hT
        rw [Nat.add_zero, h0, hopen] at hh
        have := htch 0 hT
        rw [← hh] at this
        rw [hparenNotIdent] at this
        exact Bool.false_ne_true this
    refine occAt_of_getD ht ?_ ?_ ?_ ?_
    · rw [hscopelen]
      omega
    · intro j hj
      rw [hscope_getD (gp - a + j) (by omega),
        show a + (gp - a + j) = gp + j by omega]
      exact occAt_getD_char ht hocc j hj
    · right
      rw [hscope_getD (gp - a - 1) (by omega),
        show a + (gp - a - 1) = gp - 1 by omega]
      rcases (occAt_iff.mp hocc).2.1 with h0 | h'
      · omega
      · exact h'
    · rcases Nat.lt_or_ge (gp + t.length) b with hend | hend
      · rw [hscope_getD (gp - a + t.length) (by omega),
          show a + (gp - a + t.length) = gp + t.length by omega]
        exact (occAt_iff.mp hocc).2.2
      · have hend' : gp - a + t.length = b - a := by omega
        rw [hend', getD_eq_default ' ' (by omega)]
        decide
  -- straddle exclusions
  have hnostraddle_a : ∀ gp, occAt s t gp = true → gp < a → gp + t.length ≤ a := by
    intro gp hocc hga
    by_contra hcon
    push_neg at hcon
    have hh := occAt_getD_char ht hocc (a - gp) (by omega)
    rw [show gp + (a - gp) = a by omega, hopen] at hh
    have := htch (a - gp) (by omega)
    rw [← hh, hparenNotIdent] at this
    exact Bool.false_ne_true this
  have hnostraddle_b : ∀ gp, occAt s t gp = true → gp < b → gp + t.length ≤ b := by
    intro gp hocc hgb
    by_contra hcon
    push_neg at hcon
    have hgbound := matchAt_add_le ht (occAt_iff.mp hocc).1
    have hblt : b < s.length := by omega
    have hh := occAt_getD_char ht hocc (b - 1 - gp) (by omega)
    rw [show gp + (b - 1 - gp) = b - 1 by omega] at hh
    have := htch (b - 1 - gp) (by omega)
    rw [← hh] at this
    rcases hlast with h0 | hni
    · omega
    · rw [hni] at this
      exact Bool.false_ne_true this
  -- the image of an in-window token under the local rename
  have hwin : ∀ gp, occAt s t gp = true → a ≤ gp → gp < b →
      occAt m t (posMap old.length new.length ps 0 (gp - a)) = true := by
    intro gp hocc hga hgb
    have hend := hnostraddle_b gp hocc hgb
    have hlocc := hlocal gp hocc hga hend
    rw [hm]
    exact occAt_preserved hv ht ps (gp - a) hsep hlocc
      (fun p hp => hdisj scope (gp - a) p hlocc (hsep.occ p hp))
  have hwin_ge1 : ∀ gp, occAt s t gp = true → a ≤ gp → gp < b →
      1 ≤ posMap old.length new.length ps 0 (gp - a) := by
    intro gp hocc hga hgb
    by_contra hx0
    have hx0' : posMap old.length new.length ps 0 (gp - a) = 0 := by omega
    have hh := occAt_getD_char ht (hwin gp hocc hga hgb) 0 hT
    rw [hx0', Nat.add_zero, hmhead] at hh
    have := htch 0 hT
    rw [← hh, hparenNotIdent] at this
    exact Bool.false_ne_true this
  have hwin_le : ∀ gp, occAt s t gp = true → a ≤ gp → gp < b →
      posMap old.length new.length ps 0 (gp - a) + t.length ≤ m.length := by
    intro gp hocc hga hgb
    exact matchAt_add_le ht (occAt_iff.mp (hwin gp hocc hga hgb)).1
  refine ⟨spliceMap old.length new.length ps a b m.length, ?_, ?_⟩
  · intro gp hocc
    simp only [spliceMap]
    have hgbound := matchAt_add_le ht (occAt_iff.mp hocc).1
    by_cases hga : gp < a
    · rw [if_pos hga]
      have hend := hnostraddle_a gp hocc hga
      refine occAt_of_getD ht (by omega) ?_ ?_ ?_
      · intro j hj
        rw [hs'getD, if_pos (by omega)]
        exact occAt_getD_char ht hocc j hj
      · rcases (occAt_iff.mp hocc).2.1 with h0 | h'
        · left; exact h0
        · right
          rw [hs'getD, if_pos (by omega)]
          exact h'
      · rcases Nat.lt_or_ge (gp + t.length) a with h' | h'
        · rw [hs'getD, if_pos h']
          exact (occAt_iff.mp hocc).2.2
        · have ha' : gp + t.length = a := by omega
          rw [hs'getD, if_neg (by omega), if_pos (by omega), ha',
            Nat.sub_self, hmhead]
          decide
    · rw [if_neg hga]
      by_cases hgb : gp < b
      · rw [if_pos hgb]
        have hxocc := hwin gp hocc (by omega) hgb
        have hx1 := hwin_ge1 gp hocc (by omega) hgb
        have hxT := hwin_le gp hocc (by omega) hgb
        have hend := hnostraddle_b gp hocc hgb
        refine occAt_of_getD ht (by omega) ?_ ?_ ?_
        · intro j hj
          rw [hs'getD, if_neg (by omega), if_pos (by omega),
            show a + posMap old.length new.length ps 0 (gp - a) + j - a
              = posMap old.length new.length ps 0 (gp - a) + j by omega]
          exact occAt_getD_char ht hxocc j hj
        · right
          rw [hs'getD, if_neg (by omega), if_pos (by omega),
            show a + posMap old.length new.length ps 0 (gp - a) - 1 - a
              = posMap old.length new.length ps 0 (gp - a) - 1 by omega]
          rcases (occAt_iff.mp hxocc).2.1 with h0 | h'
          · omega
          · exact h'
        · rcases Nat.lt_or_ge (posMap old.length new.length ps 0 (gp - a) + t.length)
              m.length with h' | h'
          · rw [hs'getD, if_neg (by omega), if_pos (by omega),
              show a + posMap old.length new.length ps 0 (gp - a) + t.length - a
                = posMap old.length new.length ps 0 (gp - a) + t.length by omega]
            exact (occAt_iff.mp hxocc).2.2
          · -- the local image ends flush with the renamed scope: the token
            -- ended flush with the scope, and the next character is the
            -- original one after the window
            have hxeq : posMap old.length new.length ps 0 (gp - a) + t.length
                = m.length := by omega
            have hgpb : gp + t.length = b := by
              by_contra hne
              have hlt' : gp + t.length < b := by omega
              have hlocc := hlocal gp hocc (by omega) (by omega)
              have hptfree : ∀ p ∈ ps, (gp - a) + (t.length + 1) ≤ p ∨
                  p + old.length ≤ gp - a := by
                intro p hp
                rcases hdisj scope (gp - a) p hlocc (hsep.occ p hp) with h1 | h1
                · left
                  rcases Nat.lt_or_ge (gp - a + t.length) p with h2 | h2
                  · omega
                  · exfalso
                    have hpe : p = gp - a + t.length := by omega
                    have hhead := occAt_head_ident hv (hsep.occ p hp)
                    rw [hpe] at hhead
                    rw [hscope_getD (gp - a + t.length) (by omega),
                      show a + (gp - a + t.length) = gp + t.length by omega] at hhead
                    rw [(occAt_iff.mp hocc).2.2] at hhead
                    exact Bool.false_ne_true hhead
                · right; exact h1
              have hframe := renameFrom_frame new hv ps 0 (gp - a) (t.length + 1)
                hsep (Nat.zero_le _) hptfree
              have hlenf := congrArg List.length hframe
              simp only [List.length_take, List.length_drop] at hlenf
              rw [hscopelen] at hlenf
              rw [hm] at hxeq
              omega
            rw [hs'getD, if_neg (by omega), if_neg (by omega),
              show a + posMap old.length new.length ps 0 (gp - a) + t.length - a
                  - m.length = 0 by omega,
              Nat.add_zero, ← hgpb]
            exact (occAt_iff.mp hocc).2.2
      · rw [if_neg hgb]
        refine occAt_of_getD ht (by omega) ?_ ?_ ?_
        · intro j hj
          rw [hs'getD, if_neg (by omega), if_neg (by omega),
            show b + (gp - b + (a + m.length) + j - a - m.length) = gp + j by omega]
          exact occAt_getD_char ht hocc j hj
        · right
          by_cases hgpb : gp = b
          · have hblt : b < s.length := by omega
            obtain ⟨hml, hmc⟩ := hmlast hblt
            rw [hs'getD, if_neg (by omega), if_pos (by omega),
              show gp - b + (a + m.length) - 1 - a = m.length - 1 by omega, hmc]
            rcases (occAt_iff.mp hocc).2.1 with h0 | h'
            · omega
            · rw [hgpb] at h'
              exact h'
          · rw [hs'getD, if_neg (by omega), if_neg (by omega),
              show b + (gp - b + (a + m.length) - 1 - a - m.length) = gp - 1 by omega]
            rcases (occAt_iff.mp hocc).2.1 with h0 | h'
            · omega
            · exact h'
        · rw [hs'getD, if_neg (by omega), if_neg (by omega),
            show b + (gp - b + (a + m.length) + t.length - a - m.length)
              = gp + t.length by omega]
          exact (occAt_iff.mp hocc).2.2
  · intro gp gq hgp hgq hlt
    simp only [spliceMap]
    have hppos : ∀ r, occAt s t r = true → a ≤ r → r < b →
        (∀ p ∈ ps, r - a < p ∨ p + old.length ≤ r - a) := by
      intro r hocc hra hrb p hp
      have hend := hnostraddle_b r hocc hrb
      have hlocc := hlocal r hocc hra hend
      rcases hdisj scope (r - a) p hlocc (hsep.occ p hp) with h1 | h1
      · left; omega
      · right; exact h1
    by_cases h1 : gp < a <;> by_cases h2 : gq < a
    · rw [if_pos h1, if_pos h2]
      exact hlt
    · rw [if_pos h1, if_neg h2]
      by_cases h3 : gq < b
      · rw [if_pos h3]
        omega
      · rw [if_neg h3]
        omega
    · exact absurd hlt (by omega)
    · rw [if_neg h1, if_neg h2]
      by_cases h3 : gp < b <;> by_cases h4 : gq < b
      · rw [if_pos h3, if_pos h4]
        have hmono := @posMap_mono old.length new.length hL ps 0 (gp - a) (gq - a)
          (Nat.zero_le _) (by omega) hsep.sep
          (hppos gp hgp (by omega) h3)
          (hppos gq hgq (by omega) h4)
          hsep.lb
        omega
      · rw [if_pos h3, if_neg h4]
        have hxT := hwin_le gp hgp (by omega) h3
        omega
      · exact absurd hlt (by omega)
      · rw [if_neg h3, if_neg h4]
        omega

/-! ## Overlap impossibility for `User` inside `UserService` -/

theorem userService_chars_ident :
    ∀ j, j < userServiceName.length →
      isIdentChar (userServiceName.getD j ' ') = true := by decide

theorem userName_chars_ident :
    ∀ j, j < userName.length → isIdentChar (userName.getD j ' ') = true := by decide

/-- A word-boundary `UserService` token and a word-boundary `User` token in
the same buffer can never overlap: whichever starts first, the other's
boundary character would fall on an identifier character. -/
theorem user_service_disjoint (c : List Char) (r p : Nat)
    (hr : occAt c userServiceName r = true) (hp : occAt c userName p = true) :
    r + userServiceName.length ≤ p ∨ p + userName.length ≤ r := by
  have hlenS : userServiceName.length = 11 := rfl
  have hlenU : userName.length = 4 := rfl
  by_contra hcon
  push_neg at hcon
  obtain ⟨h1, h2⟩ := hcon
  rcases Nat.lt_or_ge p r with hc | hc
  · -- the character before the `UserService` token lies inside `User`
    have hch := occAt_getD_char (by decide) hp (r - 1 - p) (by omega)
    rw [show p + (r - 1 - p) = r - 1 by omega] at hch
    have hid : isIdentChar (c.getD (r - 1) ' ') = true := by
      rw [hch]
      exact userName_chars_ident (r - 1 - p) (by omega)
    rcases (occAt_iff.mp hr).2.1 with h0 | hni
    · omega
    · rw [hni] at hid
      exact Bool.false_ne_true hid
  · rcases Nat.eq_or_lt_of_le hc with he | hlt
    · -- same start: the character after the `User` token lies inside
      -- `UserService`
      have hch := occAt_getD_char (by decide) hr (p + 4 - r) (by omega)
      rw [show r + (p + 4 - r) = p + 4 by omega] at hch
      have hid : isIdentChar (c.getD (p + 4) ' ') = true := by
        rw [hch]
        exact userService_chars_ident (p + 4 - r) (by omega)
      have haft := (occAt_iff.mp hp).2.2
      rw [hlenU] at haft
      rw [haft] at hid
      exact Bool.false_ne_true hid
    · -- the character before the `User` token lies inside `UserService`
      have hch := occAt_getD_char (by decide) hr (p - 1 - r) (by omega)
      rw [show r + (p - 1 - r) = p - 1 by omega] at hch
      have hid : isIdentChar (c.getD (p - 1) ' ') = true := by
        rw [hch]
        exact userService_chars_ident (p - 1 - r) (by omega)
      rcases (occAt_iff.mp hp).2.1 with h0 | hni
      · omega
      · rw [hni] at hid
        exact Bool.false_ne_true hid

/-- Token preservation for a full single-pass rename under any context
predicate, given that the token can never overlap the renamed name. -/
theorem tokPres_singlePass (src old new t : List Char)
    (P : List Char → Nat → Nat → Bool) (hv : validIdentifier old = true)
    (ht : t ≠ [])
    (hdisj : ∀ (c : List Char) (r p : Nat), occAt c t r = true →
      occAt c old p = true → r + t.length ≤ p ∨ p + old.length ≤ r) :
    TokPres t src (singlePassRename src old new P).1 :=
  tokPres_renameFrom new hv ht (acceptedPos src old P)
    (sepOcc_acceptedPos src old P hv)
    (fun r p hr hp => hdisj src r p hr ((mem_acceptedPos hv).mp hp).1)

/-! ## The `renameParameters` loop as a chain of scope edits -/

theorem paramHeader_cases (old new : List Char) (st : PState) {fs rel : Nat}
    (hidx : List.findIdx? (fun c => c == '(') (st.result.drop fs) = some rel) :
    (paramHeader old new st (fs + rel)).result = st.result ∨
    ScopeEditStep old new st.result (paramHeader old new st (fs + rel)).result := by
  rcases hpc : findMatchingParen st.result (fs + rel) with _ | pc
  · have h1 : paramHeader old new st (fs + rel) = st := by
      unfold paramHeader
      rw [hpc]
    rw [h1]
    left
    rfl
  · have h1 : paramHeader old new st (fs + rel)
        = if hasParamName (extract st.result (fs + rel) (pc + 1)) old
          then spliceScope old new st (fs + rel) (headerBodyEnd st.result pc)
          else st := by
      unfold paramHeader
      rw [hpc]
    rw [h1]
    by_cases hhp : hasParamName (extract st.result (fs + rel) (pc + 1)) old = true
    · rw [if_pos hhp]
      unfold spliceScope
      by_cases hcnt : 0 < (singlePassRename
          (extract st.result (fs + rel) (headerBodyEnd st.result pc)) old new
          isParameterContext).2
      · rw [if_pos hcnt]
        right
        exact ⟨fs + rel, headerBodyEnd st.result pc,
          ⟨⟨fs, rel, Nat.le_add_right fs rel, hidx, rfl⟩, pc, hpc, hhp, rfl⟩, rfl⟩
      · rw [if_neg hcnt]
        left
        rfl
    · rw [if_neg hhp]
      left
      rfl

theorem paramStep_result_cases {old new : List Char} {st st₁ : PState} {loc : Nat}
    (h : paramStep old new st loc = some st₁) :
    st₁.result = st.result ∨ ScopeEditStep old new st.result st₁.result := by
  unfold paramStep at h
  by_cases hg : (loc : Int) + st.offset < 0 ∨
      (st.result.length : Int) < (loc : Int) + st.offset
  · rw [if_pos hg] at h
    exact Option.noConfusion h
  · rw [if_neg hg] at h
    rcases hidx : List.findIdx? (fun c => c == '(')
        (st.result.drop ((loc : Int) + st.offset).toNat) with _ | rel
    · rw [hidx] at h
      injection h with h
      left
      rw [← h]
    · rw [hidx] at h
      injection h with h
      rw [← h]
      exact paramHeader_cases old new st hidx

theorem foldl_paramStep_none (old new : List Char) :
    ∀ locs : List Nat,
    locs.foldl (fun o loc => o.bind (fun st => paramStep old new st loc)) none
      = none := by
  intro locs
  induction locs with
  | nil => rfl
  | cons loc locs ih =>
    rw [List.foldl_cons, Option.none_bind]
    exact ih

theorem foldl_paramStep_chain (old new : List Char) :
    ∀ (locs : List Nat) (st st' : PState),
    locs.foldl (fun o loc => o.bind (fun st => paramStep old new st loc)) (some st)
      = some st' →
    Relation.ReflTransGen (ScopeEditStep old new) st.result st'.result := by
  intro locs
  induction locs with
  | nil =>
    intro st st' h
    injection h with h
    subst h
    exact Relation.ReflTransGen.refl
  | cons loc locs ih =>
    intro st st' h
    rw [List.foldl_cons, Option.some_bind] at h
    rcases hstep : paramStep old new st loc with _ | st₁
    · rw [hstep, foldl_paramStep_none old new locs] at h
      exact Option.noConfusion h
    · rw [hstep] at h
      have hchain := ih st₁ st' h
      rcases paramStep_result_cases hstep with he | hs
      · rw [← he]
        exact hchain
      · exact Relation.ReflTransGen.head hs hchain

/-- Every successful `renameParameters` run is a chain of scope-splicing
edits: each step rewrites one resolved function scope whose parameter list
declares the target, and copies everything outside that scope verbatim. -/
theorem renameParameters_chain {src old new out : List Char} {n : Nat}
    (h : renameParameters src old new = some (out, n)) :
    Relation.ReflTransGen (ScopeEditStep old new) src out := by
  unfold renameParameters at h
  rw [Option.map_eq_some'] at h
  obtain ⟨st, hf, hpair⟩ := h
  have hout : st.result = out := congrArg Prod.fst hpair
  have hchain := foldl_paramStep_chain old new (occurrencesOf src funKw)
    ⟨src, 0, 0⟩ st hf
  rw [← hout]
  exact hchain

/-- Token preservation along a chain of scope edits. -/
theorem tokPres_of_chain {old new t : List Char} (hv : validIdentifier old = true)
    (ht : t ≠ []) (htid : ∀ c ∈ t, isIdentChar c = true)
    (hdisj : ∀ (c : List Char) (r p : Nat), occAt c t r = true →
      occAt c old p = true → r + t.length ≤ p ∨ p + old.length ≤ r)
    {s s' : List Char} (h : Relation.ReflTransGen (ScopeEditStep old new) s s') :
    TokPres t s s' := by
  induction h with
  | refl => exact tokPres_refl t s
  | tail _ hstep ih =>
    exact tokPres_trans ih (tokPres_scopeEdit hv ht htid hdisj hstep)

/-! ## Claim C1 -/

/-- C1: substring safety.  For every symbol kind, every replacement name
and every buffer, whenever the rename of `User` succeeds, every
word-boundary `UserService` token of the input survives intact and in
order into the output: renaming `User` never alters the longer identifier
that contains it, because replacement requires non-identifier characters
on both sides of the matched span. -/
theorem C1_substring_safety (kind : SymbolKind) (newName src out : List Char)
    (n : Nat) (h : renameByKind kind src userName newName = some (out, n)) :
    TokPres userServiceName src out := by
  have hv : validIdentifier userName = true := by decide
  have htne : userServiceName ≠ [] := by decide
  have htid : ∀ c ∈ userServiceName, isIdentChar c = true := by decide
  cases kind with
  | typeSym =>
    simp only [renameByKind] at h
    injection h with h
    have hout : out = (singlePassRename src userName newName isClassContext).1 := by
      rw [h]
    rw [hout]
    exact tokPres_singlePass src userName newName userServiceName isClassContext
      hv htne user_service_disjoint
  | functionSym =>
    simp only [renameByKind] at h
    injection h with h
    have hout : out = (singlePassRename src userName newName isMethodContext).1 := by
      rw [h]
    rw [hout]
    exact tokPres_singlePass src userName newName userServiceName isMethodContext
      hv htne user_service_disjoint
  | propertySym =>
    simp only [renameByKind] at h
    injection h with h
    have hout : out = (singlePassRename src userName newName isPropertyContext).1 := by
      rw [h]
    rw [hout]
    exact tokPres_singlePass src userName newName userServiceName isPropertyContext
      hv htne user_service_disjoint
  | parameterSym =>
    simp only [renameByKind] at h
    exact tokPres_of_chain hv htne htid user_service_disjoint
      (renameParameters_chain h)

set_option maxRecDepth 8192 in
theorem C1_witness :
    renameByKind SymbolKind.typeSym c1Buf userName personName = some (c1Out, 1) ∧
    TokPres userServiceName c1Buf c1Out :=
  ⟨by decide, C1_substring_safety SymbolKind.typeSym personName c1Buf c1Out 1
    (by decide)⟩

/-! ## Claim C6 -/

set_option maxRecDepth 8192 in
/-- C6: parameter scope containment.  A Parameter rename only ever edits
the buffer through scope splices: every successful run factors as a chain
of steps, each rewriting one resolved scope (from a qualifying header's
parameter-list `(` through its resolved body end, with the parameter list
declaring the target before `:`) and copying every character outside that
scope verbatim.  Concretely, on Scenario D renaming `userId` to
`accountId` rewrites exactly the two occurrences inside `greet` (count 2)
and leaves the file-level `val userId` declaration unchanged. -/
theorem C6_parameter_scope_containment :
    (∀ (src old new out : List Char) (n : Nat),
        renameParameters src old new = some (out, n) →
        Relation.ReflTransGen (ScopeEditStep old new) src out) ∧
    renameParameters scenarioD userIdName accountIdName = some (scenarioDOut, 2) :=
  ⟨fun _ _ _ _ _ h => renameParameters_chain h, by decide⟩

theorem C6_witness :
    Relation.ReflTransGen (ScopeEditStep userIdName accountIdName)
      scenarioD scenarioDOut :=
  C6_parameter_scope_containment.1 scenarioD userIdName accountIdName
    scenarioDOut 2 C6_parameter_scope_containment.2

/-! ## Claim C2 -/

/-- C2: RenameOutcome exactness of the single-pass driver.  For every
buffer, old name, new name and context predicate, the returned count is
exactly the number of word-boundary occurrences accepted by the predicate;
the output has the new name at every accepted span (at the shifted
position), every window of the input disjoint from all accepted spans —
including every rejected occurrence — is byte-for-byte identical in the
output, and the output length differs from the input only by the
accumulated per-replacement delta. -/
theorem C2_rename_outcome_exact (src old new : List Char)
    (P : List Char → Nat → Nat → Bool) (hv : validIdentifier old = true) :
    (singlePassRename src old new P).2 = (acceptedPos src old P).length ∧
    (singlePassRename src old new P).1.length +
        (acceptedPos src old P).length * old.length
      = src.length + (acceptedPos src old P).length * new.length ∧
    (∀ p ∈ acceptedPos src old P,
      ((singlePassRename src old new P).1.drop
          (posMap old.length new.length (acceptedPos src old P) 0 p)).take new.length
        = new) ∧
    (∀ q k : Nat, (∀ p ∈ acceptedPos src old P, q + k ≤ p ∨ p + old.length ≤ q) →
      ((singlePassRename src old new P).1.drop
          (posMap old.length new.length (acceptedPos src old P) 0 q)).take k
        = (src.drop q).take k) := by
  refine ⟨rfl, ?_, ?_, ?_⟩
  · have h := renameFrom_length new hv (acceptedPos src old P) 0
      (sepOcc_acceptedPos src old P hv) (Nat.zero_le _)
    simpa [singlePassRename] using h
  · intro p hp
    exact renameFrom_insert new hv (acceptedPos src old P) 0 p
      (sepOcc_acceptedPos src old P hv) hp
  · intro q k hfree
    exact renameFrom_frame new hv (acceptedPos src old P) 0 q k
      (sepOcc_acceptedPos src old P hv) (Nat.zero_le _) hfree

/-- Witness for C2: the length accounting at a concrete property rename. -/
theorem C2_witness :
    (singlePassRename ("x = a".toList) ("a".toList) ("bc".toList) isPropertyContext).1.length
        + (acceptedPos ("x = a".toList) ("a".toList) isPropertyContext).length *
            ("a".toList).length
      = ("x = a".toList).length
        + (acceptedPos ("x = a".toList) ("a".toList) isPropertyContext).length *
            ("bc".toList).length :=
  (C2_rename_outcome_exact ("x = a".toList) ("a".toList) ("bc".toList) isPropertyContext
    (by decide)).2.1

/-! ## Claim C3 -/

/-- C3: the claimed `className` narrowing does not exist in the code.  The
`ClassName` field of `MethodRenamer` is never consulted by
`isMethodContext`, so for every supplied class name a method rename
rewrites the same-named call sites on *both* receivers; nothing associates
an occurrence with the named class. -/
theorem C3_className_never_narrows (cn : List Char) :
    MethodRenamer.Rename ⟨cn⟩ ("alpha.process()\nbeta.process()".toList)
        ("process".toList) ("handle".toList)
      = ("alpha.handle()\nbeta.handle()".toList, 2) :=
  rfl

/-! ## Claim C4 -/

/-- C4 fails as stated, in both directions of its "if and only if".  At
`myfun target = 1` the occurrence of `target` is not preceded by the
*keyword* `fun` (only by an identifier that happens to end in `fun`), yet
the code accepts it, because `isMethodContext` tests a raw
`HasSuffix(trimmedPre, "fun")`.  At `fun target x` the occurrence *is*
preceded by the keyword `fun`, yet the code rejects it, because the
predicate first rejects any occurrence whose space/tab-trimmed post starts
with an identifier character. -/
theorem C4_counterexample :
    (occAt ("myfun target = 1".toList) ("target".toList) 6 = true ∧
      isMethodContext ("myfun target = 1".toList) 6 12 = true ∧
      claimedFunctionAccept ("myfun target = 1".toList) 6 12 = false) ∧
    (occAt ("fun target x".toList) ("target".toList) 4 = true ∧
      isMethodContext ("fun target x".toList) 4 10 = false ∧
      claimedFunctionAccept ("fun target x".toList) 4 10 = true) := by
  decide

/-- C4 amended: the Function predicate accepts an occurrence exactly when
the character just before it is not an identifier character, the first
character of the space/tab-trimmed following text is not an identifier
character, and the trimmed preceding text ends with `::` or with the three
raw characters `fun` (even as the tail of a longer identifier), or the
trimmed following text starts with `(`.  The consequences claimed for the
concrete scenario do hold: both call sites of `calculateTotal` are
rewritten (count 2) and `val calculateTotal = 5` is left unchanged
(count 0). -/
theorem C4_amended :
    (∀ (src : List Char) (a b : Nat),
        isMethodContext src a b = true ↔
          (∀ c, (src.take a).getLast? = some c → isIdentChar c = false) ∧
          (∀ c, (dropLeadWS (src.drop b)).head? = some c → isIdentChar c = false) ∧
          ([':', ':'] <:+ dropTrailWS (src.take a) ∨
            ['f', 'u', 'n'] <:+ dropTrailWS (src.take a) ∨
            (dropLeadWS (src.drop b)).head? = some '(')) ∧
    singlePassRename ("val total = cart.calculateTotal()\nval x = calculateTotal()".toList)
        ("calculateTotal".toList) ("computeTotal".toList) isMethodContext
      = ("val total = cart.computeTotal()\nval x = computeTotal()".toList, 2) ∧
    singlePassRename ("val calculateTotal = 5".toList) ("calculateTotal".toList)
        ("computeTotal".toList) isMethodContext
      = ("val calculateTotal = 5".toList, 0) :=
  ⟨fun _ _ _ => methodCtx_iff _ _, by decide, by decide⟩

/-! ## Claim C5 -/

/-- C5 fails as stated, in both of its universal halves.  A Property rename
*does* rewrite `comboDiscount` in `x.comboDiscount()` although the
occurrence is immediately followed by `(`, because the member-access branch
(`.` before the name) fires first.  And it does *not* rewrite the bare
occurrence in `comboDiscount x` although that occurrence is not followed by
`(`, because the trimmed post starts with an identifier character. -/
theorem C5_counterexample :
    (singlePassRename ("x.comboDiscount()".toList) ("comboDiscount".toList)
        ("bundle".toList) isPropertyContext = ("x.bundle()".toList, 1) ∧
      occAt ("x.comboDiscount()".toList) ("comboDiscount".toList) 2 = true ∧
      (dropLeadWS (("x.comboDiscount()".toList).drop 15)).headD ' ' = '(') ∧
    (singlePassRename ("comboDiscount x".toList) ("comboDiscount".toList)
        ("bundle".toList) isPropertyContext = ("comboDiscount x".toList, 0) ∧
      occAt ("comboDiscount x".toList) ("comboDiscount".toList) 0 = true ∧
      ¬ (dropLeadWS (("comboDiscount x".toList).drop 13)).headD ' ' = '(') := by
  decide

set_option maxRecDepth 8192 in
/-- C5 amended: a Property rename refuses an occurrence that is followed
(after space/tab trimming) by `(` exactly when the trimmed preceding text
does not end with `.`, `val` or `var`; it always rewrites an occurrence
whose boundary checks pass and whose trimmed following text does not start
with `(`.  The concrete scenario stands: all five property occurrences are
rewritten (count 5) and the sibling `comboDiscount()` call is untouched. -/
theorem C5_amended :
    (∀ (src : List Char) (a b : Nat),
        (dropLeadWS (src.drop b)).head? = some '(' →
        (isPropertyContext src a b = true ↔
          (∀ c, (src.take a).getLast? = some c → isIdentChar c = false) ∧
          (['.'] <:+ dropTrailWS (src.take a) ∨
            ['v', 'a', 'l'] <:+ dropTrailWS (src.take a) ∨
            ['v', 'a', 'r'] <:+ dropTrailWS (src.take a)))) ∧
    (∀ (src : List Char) (a b : Nat),
        (∀ c, (src.take a).getLast? = some c → isIdentChar c = false) →
        (∀ c, (dropLeadWS (src.drop b)).head? = some c → isIdentChar c = false) →
        (dropLeadWS (src.drop b)).head? ≠ some '(' →
        isPropertyContext src a b = true) ∧
    singlePassRename
        (("val d = comboDiscount\nthis.comboDiscount = d*2\nprintln(comboDiscount)\n" ++
          "if (comboDiscount > 0) {}\ncomboDiscount = 0.0\nval y = comboDiscount()").toList)
        ("comboDiscount".toList) ("bundle".toList) isPropertyContext
      = (("val d = bundle\nthis.bundle = d*2\nprintln(bundle)\n" ++
          "if (bundle > 0) {}\nbundle = 0.0\nval y = comboDiscount()").toList, 5) := by
  refine ⟨?_, ?_, by decide⟩
  · intro src a b hpo
    unfold isPropertyContext
    rw [propCtx_iff]
    constructor
    · rintro ⟨h₁, _, h₃ | h₃⟩
      · exact absurd hpo h₃
      · exact ⟨h₁, h₃⟩
    · rintro ⟨h₁, h₂⟩
      refine ⟨h₁, ?_, Or.inr h₂⟩
      intro c hc
      rw [hpo] at hc
      injection hc with h
      subst h
      decide
  · intro src a b h₁ h₂ h₃
    unfold isPropertyContext
    rw [propCtx_iff]
    exact ⟨h₁, h₂, Or.inl h₃⟩

/-! ## Claim C10 -/

/-- C10 fails as stated: the Property predicate does not collapse to
"word boundary and not followed by `(`".  At `this.comboDiscount()` the
span is followed by `(` — the collapsed test rejects — yet the code
accepts it through the member-access (`.`) branch. -/
theorem C10_counterexample :
    isPropertyContext ("this.comboDiscount()".toList) 5 18 = true ∧
    claimedPropertyCollapse ("this.comboDiscount()".toList) 5 18 = false ∧
    occAt ("this.comboDiscount()".toList) ("comboDiscount".toList) 5 = true := by
  decide

/-- C10 amended: the Property predicate collapses to the word-boundary
test conjoined with "not followed (after trimming) by `(` — or preceded
(after trimming) by `.`, `val`, or `var`".  The `=` and `:` acceptance
rules are genuinely subsumed by the default branch, and the two examples
from the claim hold: an occurrence followed by `==` and an occurrence used
as a named argument are both rewritten. -/
theorem C10_amended :
    (∀ (src : List Char) (a b : Nat),
        isPropertyContext src a b = true ↔
          (∀ c, (src.take a).getLast? = some c → isIdentChar c = false) ∧
          (∀ c, (dropLeadWS (src.drop b)).head? = some c → isIdentChar c = false) ∧
          ((dropLeadWS (src.drop b)).head? ≠ some '(' ∨
            ['.'] <:+ dropTrailWS (src.take a) ∨
            ['v', 'a', 'l'] <:+ dropTrailWS (src.take a) ∨
            ['v', 'a', 'r'] <:+ dropTrailWS (src.take a))) ∧
    singlePassRename ("if (comboDiscount == limit) {}".toList) ("comboDiscount".toList)
        ("bundle".toList) isPropertyContext
      = ("if (bundle == limit) {}".toList, 1) ∧
    singlePassRename ("applyAll(comboDiscount = 0.5)".toList) ("comboDiscount".toList)
        ("bundle".toList) isPropertyContext
      = ("applyAll(bundle = 0.5)".toList, 1) :=
  ⟨fun _ _ _ => propCtx_iff _ _, by decide, by decide⟩

/-! ## Claim C9 -/

/-- C9: malformed-header recovery.  When the depth counter started at a
header's opening parenthesis never returns to zero
(`findMatchingParen = none`), the iteration leaves the state untouched —
buffer, offset and replacement total all unchanged, so no replacement is
made for that header and no error is raised — and the fold simply proceeds
with the remaining keyword occurrences. -/
theorem C9_malformed_header_skipped (old new : List Char) (st : PState) (loc rel : Nat)
    (locs : List Nat)
    (h0 : 0 ≤ (loc : Int) + st.offset)
    (h1 : (loc : Int) + st.offset ≤ (st.result.length : Int))
    (h2 : List.findIdx? (fun c => c == '(')
        (st.result.drop ((loc : Int) + st.offset).toNat) = some rel)
    (h3 : findMatchingParen st.result (((loc : Int) + st.offset).toNat + rel) = none) :
    paramStep old new st loc = some st ∧
    List.foldl (fun o l => o.bind (fun s => paramStep old new s l)) (some st) (loc :: locs)
      = List.foldl (fun o l => o.bind (fun s => paramStep old new s l)) (some st) locs := by
  have hguard : ¬((loc : Int) + st.offset < 0 ∨
      (st.result.length : Int) < (loc : Int) + st.offset) := by
    push_neg
    exact ⟨h0, h1⟩
  have hstep : paramStep old new st loc = some st := by
    unfold paramStep
    rw [if_neg hguard, h2]
    show some (paramHeader old new st _) = some st
    unfold paramHeader
    rw [h3]
  refine ⟨hstep, ?_⟩
  rw [List.foldl_cons]
  show List.foldl _ ((some st).bind fun s => paramStep old new s loc) locs = _
  rw [Option.some_bind, hstep]

/-- Witness for C9 at a concrete malformed header: in `fun f(x` the open
parenthesis is never matched, the step is the identity and the fold moves
on. -/
theorem C9_witness :
    paramStep ['x'] ['y'] ⟨"fun f(x".toList, 0, 0⟩ 0 = some ⟨"fun f(x".toList, 0, 0⟩ ∧
    List.foldl (fun o l => o.bind (fun s => paramStep ['x'] ['y'] s l))
        (some ⟨"fun f(x".toList, 0, 0⟩) (0 :: [4])
      = List.foldl (fun o l => o.bind (fun s => paramStep ['x'] ['y'] s l))
        (some ⟨"fun f(x".toList, 0, 0⟩) [4] :=
  C9_malformed_header_skipped ['x'] ['y'] ⟨"fun f(x".toList, 0, 0⟩ 0 5 [4]
    (by decide) (by decide) (by decide) (by decide)

end KR
